import Mathlib

/-!
Verification of the Minesweeper repository's specification.

The core `Board` component (mine placement, adjacency counting, cascading
reveal, flag management, win/loss determination) is modelled from the spec,
as its module `components.py` is not among the given source files; only its
caller `run.py` (the pygame presentation layer) is. The presentation-layer
definitions (`pos_to_grid`, `handle_mouse`, `Game.reset`, `Game.set_difficulty`,
`Game.use_hint`, ...) are translated from `run.py`.

Sources of nondeterminism and environment are made explicit parameters:
random mine placement becomes a list of mine positions, `random.choice`
becomes an index, `pygame.time.get_ticks()` becomes a clock argument, and
the ambient mutable `config` module becomes an explicit `Config` value.
-/

set_option autoImplicit false

namespace Mines

/-- A grid position, written `(col, row)`. -/
abbrev Pos := Nat × Nat

/-- Modelled from the spec: per-cell state of `components.Cell.state`
(`is_mine`, `adjacent`, `is_revealed`, `is_flagged`). -/
structure CellState where
  is_mine : Bool
  adjacent : Nat
  is_revealed : Bool
  is_flagged : Bool
deriving DecidableEq, Repr

instance : Inhabited CellState :=
  ⟨{ is_mine := false, adjacent := 0, is_revealed := false, is_flagged := false }⟩

/-- Modelled from the spec: a `components.Cell` with its fixed grid
coordinates and mutable state. -/
structure Cell where
  col : Nat
  row : Nat
  state : CellState
deriving DecidableEq, Repr

instance : Inhabited Cell :=
  ⟨{ col := 0, row := 0, state := default }⟩

/-- Modelled from the spec: the `components.Board` data model (section 3 of the
spec): grid shape, mine count, the flat cell sequence indexed by
`row*cols + col`, and the two terminal flags. -/
structure Board where
  cols : Nat
  rows : Nat
  mine_count : Nat
  cells : List Cell
  game_over : Bool
  win : Bool
deriving DecidableEq, Repr

/-- The eight Chebyshev-distance-1 offsets surrounding a cell. -/
def neighborOffsets : List (Int × Int) :=
  [(-1, -1), (0, -1), (1, -1), (-1, 0), (1, 0), (-1, 1), (0, 1), (1, 1)]

/-- Modelled from the spec: `Board.neighbors` as a pure function of the grid
shape: the in-bounds grid coordinates among the 8 surrounding `(p.1, p.2)`. -/
def nbrs (cols rows : Nat) (p : Pos) : List Pos :=
  neighborOffsets.filterMap (fun d =>
    let c : Int := (p.1 : Int) + d.1
    let r : Int := (p.2 : Int) + d.2
    if 0 ≤ c ∧ c < (cols : Int) ∧ 0 ≤ r ∧ r < (rows : Int) then
      some (c.toNat, r.toNat)
    else none)

/-- In-bounds predicate for a grid of the given shape. -/
def inB (cols rows : Nat) (p : Pos) : Prop := p.1 < cols ∧ p.2 < rows

instance (cols rows : Nat) (p : Pos) : Decidable (inB cols rows p) := by
  unfold inB; infer_instance

/-- Modelled from the spec: `Board.index`, mapping 2D coordinates to the
linear cell-sequence position `row*cols + col`. -/
def Board.index (b : Board) (col row : Nat) : Nat := row * b.cols + col

/-- The cell stored at linear index `i` (defaulting outside the sequence). -/
def cellAt (b : Board) (i : Nat) : Cell := b.cells.getD i default

/-- The cell at grid coordinates `(col, row)`. -/
def Board.getCell (b : Board) (col row : Nat) : Cell := cellAt b (b.index col row)

/-- Modelled from the spec: `Board.neighbors(col, row)`. -/
def Board.neighbors (b : Board) (col row : Nat) : List Pos := nbrs b.cols b.rows (col, row)

/-- Modelled from the spec: the win condition, true iff every cell with
`is_mine = false` has `is_revealed = true`. -/
def allSafeRevealed (b : Board) : Bool :=
  b.cells.all (fun c => c.state.is_mine || c.state.is_revealed)

/-- A cell after being revealed: `is_revealed` becomes true and the flag is
forced off, as the spec requires of revealed cells. -/
def revealCell (c : Cell) : Cell :=
  { c with state := { c.state with is_revealed := true, is_flagged := false } }

/-- A cell after a flag toggle. -/
def flagFlipCell (c : Cell) : Cell :=
  { c with state := { c.state with is_flagged := !c.state.is_flagged } }

/-- Mark the cell at position `p` revealed. -/
def Board.revealAt (b : Board) (p : Pos) : Board :=
  { b with cells := b.cells.set (b.index p.1 p.2) (revealCell (cellAt b (b.index p.1 p.2))) }

/-- Modelled from the spec: the reveal cascade (flood fill) of section 4.1,
with an explicit worklist and a visited set keyed by cell position so each
cell is processed at most once. A popped position that is new and holds an
unrevealed, unflagged, non-mine cell is revealed; if its adjacency count is 0
its neighbors are queued. The fuel argument bounds the number of worklist
pops; `Board.reveal` supplies enough fuel for the cascade to run to
completion. Returns the updated board and the final visited set. -/
def Board.floodFill (b : Board) : List Pos → List Pos → Nat → Board × List Pos
  | _, visited, 0 => (b, visited)
  | [], visited, _ + 1 => (b, visited)
  | p :: work, visited, fuel + 1 =>
    if p ∈ visited then
      b.floodFill work visited fuel
    else if (b.getCell p.1 p.2).state.is_revealed || (b.getCell p.1 p.2).state.is_flagged ||
        (b.getCell p.1 p.2).state.is_mine then
      b.floodFill work (p :: visited) fuel
    else if (b.getCell p.1 p.2).state.adjacent = 0 then
      (b.revealAt p).floodFill (work ++ nbrs b.cols b.rows p) (p :: visited) fuel
    else
      (b.revealAt p).floodFill work (p :: visited) fuel

/-- Modelled from the spec: the final step of `Board.reveal`: recompute the
win flag, true iff every non-mine cell is now revealed. -/
def Board.recompute_win (b : Board) : Board :=
  { b with win := allSafeRevealed b }

/-- Modelled from the spec: `Board.reveal(col, row)` (section 4.1). No-op when
the board is terminal or the target is already revealed or flagged;
out-of-range coordinates are a caller contract violation and are rejected
(modelled as leaving the board unchanged). A mine target is marked revealed
and sets `game_over`; otherwise the flood-fill cascade runs. After either, the
win flag is recomputed as true iff every non-mine cell is revealed. -/
def Board.reveal (b : Board) (col row : Nat) : Board :=
  if b.game_over || b.win then b
  else if col < b.cols ∧ row < b.rows then
    if (b.getCell col row).state.is_revealed || (b.getCell col row).state.is_flagged then b
    else if (b.getCell col row).state.is_mine then
      Board.recompute_win { b.revealAt (col, row) with game_over := true }
    else
      Board.recompute_win (b.floodFill [(col, row)] [] (9 * (b.cols * b.rows) + 1)).1
  else b

/-- Flip the flag of the cell at position `p`. -/
def Board.flagToggleAt (b : Board) (p : Pos) : Board :=
  { b with cells := b.cells.set (b.index p.1 p.2) (flagFlipCell (cellAt b (b.index p.1 p.2))) }

/-- Modelled from the spec: `Board.toggle_flag(col, row)`: no-op when the
board is terminal or the cell is revealed (out-of-range is rejected as for
`reveal`); otherwise flips `is_flagged`. -/
def Board.toggle_flag (b : Board) (col row : Nat) : Board :=
  if b.game_over || b.win then b
  else if col < b.cols ∧ row < b.rows then
    if (b.getCell col row).state.is_revealed then b
    else b.flagToggleAt (col, row)
  else b

/-- Modelled from the spec: `Board.flagged_count()`, the number of currently
flagged cells. -/
def Board.flagged_count (b : Board) : Nat :=
  b.cells.countP (fun c => c.state.is_flagged)

/-- Grid position of linear index `i`. -/
def posOf (cols i : Nat) : Pos := (i % cols, i / cols)

/-- Modelled from the spec: construction of one cell at linear index `i`: its
fixed coordinates, mine membership, and adjacency count (number of in-bounds
neighbors that are mines), unrevealed and unflagged. -/
def mkCell (cols rows : Nat) (mines : List Pos) (i : Nat) : Cell :=
  let c := i % cols
  let r := i / cols
  { col := c
    row := r
    state :=
      { is_mine := decide ((c, r) ∈ mines)
        adjacent := (nbrs cols rows (c, r)).countP (fun q => decide (q ∈ mines))
        is_revealed := false
        is_flagged := false } }

/-- Modelled from the spec: the successful-construction path of
`Board(cols, rows, mine_count)`: allocate `cols*rows` cells at their fixed
coordinates with mines at the given (randomly sampled) positions, adjacency
computed, everything unrevealed and unflagged, and both terminal flags false.
The random sample of distinct mine positions is the `mines` parameter. -/
def mkBoard (cols rows mc : Nat) (mines : List Pos) : Board :=
  { cols := cols
    rows := rows
    mine_count := mc
    cells := (List.range (cols * rows)).map (mkCell cols rows mines)
    game_over := false
    win := false }

/-- Modelled from the spec: `Board` construction including its
`InvalidConfiguration` check: fails (returns `none`) iff
`mine_count >= cols*rows` or either dimension is non-positive. -/
def Board.make (cols rows mc : Int) (mines : List Pos) : Option Board :=
  if cols ≤ 0 ∨ rows ≤ 0 ∨ cols * rows ≤ mc then none
  else some (mkBoard cols.toNat rows.toNat mc.toNat mines)

/-- Structural well-formedness of a board: the cell sequence has length
`cols*rows`, the grid is non-degenerate, and each cell records the
coordinates of its own linear index. Established by construction. -/
def WF (b : Board) : Prop :=
  0 < b.cols ∧ 0 < b.rows ∧ b.cells.length = b.cols * b.rows ∧
    ∀ i ∈ List.range (b.cols * b.rows),
      (cellAt b i).col = i % b.cols ∧ (cellAt b i).row = i / b.cols

instance (b : Board) : Decidable (WF b) := by
  unfold WF; infer_instance

/-- The state invariant maintained by every board operation: the `win` flag
agrees with the recomputed win condition, and the two terminal flags are
never simultaneously true. -/
def Inv (b : Board) : Prop :=
  b.win = allSafeRevealed b ∧ ¬(b.game_over = true ∧ b.win = true)

instance (b : Board) : Decidable (Inv b) := by
  unfold Inv; infer_instance

/-- Chebyshev distance between two grid positions. -/
def chebDist (p q : Pos) : Nat :=
  max (Int.natAbs ((p.1 : Int) - (q.1 : Int))) (Int.natAbs ((p.2 : Int) - (q.2 : Int)))

/-- The cell at `p` is unrevealed, unflagged and not a mine (so a cascade may
reveal it). -/
def revealable (b : Board) (p : Pos) : Prop :=
  (b.getCell p.1 p.2).state.is_revealed = false ∧
    (b.getCell p.1 p.2).state.is_flagged = false ∧
    (b.getCell p.1 p.2).state.is_mine = false

/-- The cell at `p` is an in-bounds, revealable cell of adjacency 0: the kind
of cell through which the reveal cascade propagates. -/
def zeroCell (b : Board) (p : Pos) : Prop :=
  inB b.cols b.rows p ∧ revealable b p ∧ (b.getCell p.1 p.2).state.adjacent = 0

instance (b : Board) (p : Pos) : Decidable (revealable b p) := by
  unfold revealable; infer_instance

instance (b : Board) (p : Pos) : Decidable (zeroCell b p) := by
  unfold zeroCell; infer_instance

/-- `ZReach b t p`: `p` lies in the connected region of zero-adjacency
revealable cells reachable from the target `t` (via Chebyshev-1 steps). -/
inductive ZReach (b : Board) (t : Pos) : Pos → Prop where
  | base : zeroCell b t → ZReach b t t
  | step {q p : Pos} : ZReach b t q → zeroCell b p → p ∈ nbrs b.cols b.rows q → ZReach b t p

/-- Positions a reveal at target `t` may enqueue: the target itself, or a
neighbor of some cell in the connected zero-adjacency region of `t`. -/
def Wok (b : Board) (t p : Pos) : Prop :=
  p = t ∨ ∃ q, ZReach b t q ∧ p ∈ nbrs b.cols b.rows q

/-- The set of cells the spec says a reveal at `t` must newly reveal: the
target plus the connected zero-adjacency region reachable from `t` and its
one-ring boundary, excluding mines and flagged cells. -/
def cascadeSpec (b : Board) (t p : Pos) : Prop :=
  Wok b t p ∧ (b.getCell p.1 p.2).state.is_mine = false ∧
    (b.getCell p.1 p.2).state.is_flagged = false

/-- All in-bounds positions of a `cols × rows` grid, in linear-index order. -/
def allPositions (cols rows : Nat) : List Pos :=
  (List.range (cols * rows)).map (posOf cols)

/-- Number of in-bounds positions not yet in the visited set; the flood-fill
termination measure decreases when a new position is visited. -/
def unseen (cols rows : Nat) (visited : List Pos) : Nat :=
  (allPositions cols rows).countP (fun p => decide (p ∉ visited))

/-- A mutating board operation, for stating properties of operation
sequences. -/
inductive Op where
  | rev : Nat → Nat → Op
  | flag : Nat → Nat → Op
deriving DecidableEq, Repr

/-- Apply one operation to a board. -/
def applyOp (b : Board) : Op → Board
  | .rev c r => b.reveal c r
  | .flag c r => b.toggle_flag c r

/-- Apply a sequence of operations to a board, left to right. -/
def runOps (b : Board) (ops : List Op) : Board := ops.foldl applyOp b

/-- A pygame rectangle, from `run.py`'s use of `pygame.locals.Rect`. -/
structure Rect where
  x : Int
  y : Int
  w : Int
  h : Int
deriving DecidableEq, Repr

/-- `Rect.collidepoint`: the point lies inside the rectangle (right and
bottom edges exclusive, as in pygame). -/
def Rect.collidepoint (rc : Rect) (pos : Int × Int) : Bool :=
  rc.x ≤ pos.1 && pos.1 < rc.x + rc.w && rc.y ≤ pos.2 && pos.2 < rc.y + rc.h

/-- `UIButton` from `run.py`: a clickable header element. -/
structure UIButton where
  rect : Rect
  label : String
  kind : String
  value : Option String
  disabled : Bool
deriving DecidableEq, Repr

/-- `UIButton.contains` from `run.py`. -/
def UIButton.contains (btn : UIButton) (pos : Int × Int) : Bool :=
  btn.rect.collidepoint pos

/-- Modelled from the spec: the ambient `config` module read by `run.py`
(module source not among the given files): window geometry, the difficulty
preset currently applied (grid shape and mine count), mouse button codes, the
difficulty preset names, and the highlight duration. -/
structure Config where
  margin_left : Int
  margin_top : Int
  margin_right : Int
  margin_bottom : Int
  cell_size : Int
  width : Int
  height : Int
  cols : Nat
  rows : Nat
  num_mines : Nat
  mouse_left : Nat
  mouse_right : Nat
  mouse_middle : Nat
  highlight_duration_ms : Nat
  difficulties : List String
deriving DecidableEq, Repr

/-- `InputController.pos_to_grid` from `run.py`: convert pixel coordinates to
`(col, row)` grid indices, or `(-1, -1)` if out of bounds. Python's floor
division `//` is `Int.fdiv`. -/
def pos_to_grid (cfg : Config) (cols rows : Nat) (x y : Int) : Int × Int :=
  if ¬(cfg.margin_left ≤ x ∧ x < cfg.width - cfg.margin_right) then (-1, -1)
  else if ¬(cfg.margin_top ≤ y ∧ y < cfg.height - cfg.margin_bottom) then (-1, -1)
  else
    let col := (x - cfg.margin_left).fdiv cfg.cell_size
    let row := (y - cfg.margin_top).fdiv cfg.cell_size
    if 0 ≤ col ∧ col < (cols : Int) ∧ 0 ≤ row ∧ row < (rows : Int) then (col, row)
    else (-1, -1)

/-- The `Game` state from `run.py`, restricted to the fields the game logic
reads and writes (`renderer_board` stands for `self.renderer.board`; the
pygame screen, clock and fonts are rendering-only and omitted). -/
structure Game where
  board : Board
  renderer_board : Board
  difficulty : String
  highlight_targets : List Pos
  highlight_until_ms : Nat
  started : Bool
  start_ticks_ms : Nat
  end_ticks_ms : Nat
  hint_available : Bool
  buttons : List UIButton
deriving DecidableEq, Repr

/-- `Game._update_button_states` from `run.py`: the hint button is disabled
when the hint is spent or the board is terminal. -/
def Game.update_button_states (g : Game) : Game :=
  { g with buttons := g.buttons.map (fun btn =>
      if btn.kind = "hint" then
        { btn with disabled := (!g.hint_available) || g.board.game_over || g.board.win }
      else btn) }

/-- `Game._build_buttons` from `run.py`: one button per difficulty preset,
then the Hint and Restart buttons, laid out in the header. -/
def build_buttons (cfg : Config) : List UIButton :=
  let n : Int := cfg.difficulties.length
  let total_width : Int := n * 90 + (n - 1) * 12
  let start_x : Int := max 10 ((cfg.width - total_width).fdiv 2)
  let diffBtns := cfg.difficulties.enum.map (fun pr =>
    { rect := { x := start_x + (pr.1 : Int) * (90 + 12), y := 60, w := 90, h := 32 }
      label := pr.2
      kind := "difficulty"
      value := some pr.2
      disabled := false : UIButton })
  let total_controls : Int := 140 * 2 + 12
  let cstart_x : Int := max 10 ((cfg.width - total_controls).fdiv 2)
  let hintBtn : UIButton :=
    { rect := { x := cstart_x, y := 100, w := 140, h := 32 }
      label := "Hint", kind := "hint", value := none, disabled := false }
  let restartBtn : UIButton :=
    { rect := { x := cstart_x + 140 + 12, y := 100, w := 140, h := 32 }
      label := "Restart", kind := "restart", value := none, disabled := false }
  diffBtns ++ [hintBtn, restartBtn]

/-- `Game.reset` from `run.py` (with `Game._build_board` inlined): replace
the board with a brand-new `Board(config.cols, config.rows, config.num_mines)`
(its random mine sample is the `mines` parameter), hand it to the renderer,
clear highlights, zero the timers, make the hint available again, and refresh
the button states. -/
def Game.reset (g : Game) (cfg : Config) (mines : List Pos) : Game :=
  let b := mkBoard cfg.cols cfg.rows cfg.num_mines mines
  Game.update_button_states
    { g with
        board := b
        renderer_board := b
        highlight_targets := []
        highlight_until_ms := 0
        started := false
        start_ticks_ms := 0
        end_ticks_ms := 0
        hint_available := true }

/-- `Game.set_difficulty` from `run.py`: same name resets; a new name records
the difficulty, applies it to the config (`cfg` is the post-switch config),
rebuilds the buttons and resets. -/
def Game.set_difficulty (g : Game) (name : String) (cfg : Config) (mines : List Pos) : Game :=
  if name = g.difficulty then g.reset cfg mines
  else
    let g' := { g with difficulty := name, buttons := build_buttons cfg }
    g'.reset cfg mines

/-- The safe-cell list of `Game.use_hint` in `run.py`: coordinates of cells
that are not mines, not revealed and not flagged. -/
def Game.safe_cells (g : Game) : List Pos :=
  (g.board.cells.filter (fun cell =>
    !cell.state.is_mine && !cell.state.is_revealed && !cell.state.is_flagged)).map
    (fun cell => (cell.col, cell.row))

/-- The cell `Game.use_hint` picks: `random.choice(safe_cells)` modelled by an
arbitrary choice index `k`. -/
def Game.hint_target (g : Game) (k : Nat) : Pos :=
  g.safe_cells.getD (k % g.safe_cells.length) (0, 0)

/-- `Game.use_hint` from `run.py`: reveal a safe cell exactly once per game.
No-op when the hint is spent or the board terminal; otherwise reveal a
randomly chosen safe cell (choice index `k`, current ticks `now`) and spend
the hint. -/
def Game.use_hint (g : Game) (k now : Nat) : Game :=
  if !g.hint_available || g.board.game_over || g.board.win then g
  else if g.safe_cells.isEmpty then
    Game.update_button_states { g with hint_available := false }
  else
    let g' := if !g.started then { g with started := true, start_ticks_ms := now } else g
    let t := g.hint_target k
    Game.update_button_states
      { g' with board := g'.board.reveal t.1 t.2, hint_available := false }

/-- `Game.button_at` from `run.py`: the first button containing the position,
if any. -/
def Game.button_at (g : Game) (pos : Int × Int) : Option UIButton :=
  g.buttons.find? (fun btn => btn.contains pos)

/-- `Game.handle_button` from `run.py`: dispatch a UI button click. -/
def Game.handle_button (g : Game) (btn : UIButton) (cfg : Config) (mines : List Pos)
    (k now : Nat) : Game :=
  if btn.disabled then g
  else if btn.kind = "difficulty" ∧ btn.value.isSome then
    g.set_difficulty (btn.value.getD "") cfg mines
  else if btn.kind = "hint" then g.use_hint k now
  else if btn.kind = "restart" then g.reset cfg mines
  else g

/-- `InputController.handle_mouse` from `run.py`: a left click on a UI button
dispatches it; otherwise the pixel position is converted to grid coordinates
and, when in bounds, a left click reveals, a right click toggles a flag, and
a middle click highlights the unrevealed neighbors. When `pos_to_grid`
reports `(-1, -1)` the handler returns with the game unchanged. -/
def handle_mouse (g : Game) (cfg : Config) (pos : Int × Int) (button : Nat)
    (mines : List Pos) (k now : Nat) : Game :=
  if h : (g.button_at pos).isSome ∧ button = cfg.mouse_left then
    g.handle_button ((g.button_at pos).get h.1) cfg mines k now
  else
    let cr := pos_to_grid cfg g.board.cols g.board.rows pos.1 pos.2
    if cr.1 = -1 then g
    else if button = cfg.mouse_left then
      let g1 := { g with highlight_targets := [] }
      let g2 := if !g1.started then { g1 with started := true, start_ticks_ms := now } else g1
      { g2 with board := g2.board.reveal cr.1.toNat cr.2.toNat }
    else if button = cfg.mouse_right then
      let g1 := { g with highlight_targets := [] }
      { g1 with board := g1.board.toggle_flag cr.1.toNat cr.2.toNat }
    else if button = cfg.mouse_middle then
      let nb := g.board.neighbors cr.1.toNat cr.2.toNat
      { g with
          highlight_targets := nb.filter (fun p => !(g.board.getCell p.1 p.2).state.is_revealed)
          highlight_until_ms := now + cfg.highlight_duration_ms }
    else g

/-- A 3×3 board with a single mine in the corner, used as a concrete witness
input (the spec's section-8 scenario). -/
def exBoard3 : Board := mkBoard 3 3 1 [(2, 2)]

/-- A 2×2 board with a single mine at the origin, used as a concrete witness
input (the spec's section-8 scenario). -/
def exBoard2 : Board := mkBoard 2 2 1 [(0, 0)]

/-- `exBoard2` after revealing the non-mine corner: an Active board with a
revealed cell, used as a concrete witness input. -/
def exRevealed2 : Board := exBoard2.reveal 1 1

/-- `exBoard2` with a flag on `(0, 1)`, used as a concrete witness input. -/
def exFlagged2 : Board := exBoard2.toggle_flag 0 1

/-- A concrete configuration, used as a witness input. -/
def exConfig : Config :=
  { margin_left := 10, margin_top := 140, margin_right := 10, margin_bottom := 10
    cell_size := 40, width := 820, height := 950
    cols := 2, rows := 2, num_mines := 1
    mouse_left := 1, mouse_right := 3, mouse_middle := 2
    highlight_duration_ms := 1500
    difficulties := ["Easy", "Normal", "Hard"] }

/-- A concrete game state over `exBoard2`, used as a witness input. -/
def exGame : Game :=
  { board := exBoard2, renderer_board := exBoard2, difficulty := "Easy"
    highlight_targets := [], highlight_until_ms := 0
    started := false, start_ticks_ms := 0, end_ticks_ms := 0
    hint_available := true, buttons := build_buttons exConfig }

/-- A concrete enabled Restart button, used as a witness input. -/
def exRestartBtn : UIButton :=
  { rect := { x := 0, y := 0, w := 10, h := 10 }
    label := "Restart", kind := "restart", value := none, disabled := false }

/-! ### Theorems -/

theorem getD_set_self {α : Type} (l : List α) (i : Nat) (a d : α) (h : i < l.length) :
    (l.set i a).getD i d = a := by
  induction l generalizing i with
  | nil => simp at h
  | cons x xs ih =>
    cases i with
    | zero => rfl
    | succ n => simpa using ih n (by simpa using h)

theorem getD_set_ne {α : Type} (l : List α) (i j : Nat) (a d : α) (h : i ≠ j) :
    (l.set i a).getD j d = l.getD j d := by
  induction l generalizing i j with
  | nil => rfl
  | cons x xs ih =>
    cases i with
    | zero =>
      cases j with
      | zero => exact absurd rfl h
      | succ m => rfl
    | succ n =>
      cases j with
      | zero => rfl
      | succ m => simpa using ih n m (by omega)

theorem all_set_congr {α : Type} (l : List α) (p : α → Bool) (i : Nat) (a : α)
    (h : p a = p (l.getD i a)) : (l.set i a).all p = l.all p := by
  induction l generalizing i with
  | nil => rfl
  | cons x xs ih =>
    cases i with
    | zero =>
      have hx : p a = p x := by simpa using h
      show (p a && xs.all p) = (p x && xs.all p)
      rw [hx]
    | succ n =>
      have h' : p a = p (xs.getD n a) := by simpa using h
      show (p x && (xs.set n a).all p) = (p x && xs.all p)
      rw [ih n h']

/-- C6: Board construction fails with `InvalidConfiguration` (returns no
board) exactly when the mine count does not fit the grid or a dimension is
non-positive. -/
theorem claim_C6_invalid_configuration (cols rows mc : Int) (mines : List Pos) :
    Board.make cols rows mc mines = none ↔
      mc ≥ cols * rows ∨ cols ≤ 0 ∨ rows ≤ 0 := by
  unfold Board.make
  split
  · simp only [true_iff]
    omega
  · simp only [reduceCtorEq, false_iff]
    omega

/-- C7: for in-bounds coordinates, `reveal` on an already-revealed or flagged
cell and `toggle_flag` on a revealed cell leave the whole board unchanged
(silent no-ops). -/
theorem claim_C7_noop_reveal_flag (b : Board) (c r : Nat) (hc : c < b.cols) (hr : r < b.rows) :
    ((b.getCell c r).state.is_revealed = true ∨ (b.getCell c r).state.is_flagged = true →
      b.reveal c r = b) ∧
    ((b.getCell c r).state.is_revealed = true → b.toggle_flag c r = b) := by
  constructor
  · intro h
    unfold Board.reveal
    split
    · rfl
    · split
      · have hg : ((b.getCell c r).state.is_revealed || (b.getCell c r).state.is_flagged) = true := by
          rcases h with h | h <;> simp [h]
        simp only [hg, if_true]
      · rfl
  · intro h
    unfold Board.toggle_flag
    split
    · rfl
    · split
      · simp only [h, if_true]
      · rfl

theorem claim_C7_noop_reveal_flag_witness :
    exRevealed2.reveal 1 1 = exRevealed2 ∧ exRevealed2.toggle_flag 1 1 = exRevealed2 := by
  have h := claim_C7_noop_reveal_flag exRevealed2 1 1 (by decide) (by decide)
  exact ⟨h.1 (Or.inl (by decide)), h.2 (by decide)⟩

theorem getD_indep {α : Type} (l : List α) (i : Nat) (d d' : α) (h : i < l.length) :
    l.getD i d = l.getD i d' := by
  induction l generalizing i with
  | nil => simp at h
  | cons x xs ih =>
    cases i with
    | zero => rfl
    | succ n => simpa using ih n (by simpa using h)

theorem revealCell_is_mine (c : Cell) : (revealCell c).state.is_mine = c.state.is_mine := rfl

theorem revealCell_adjacent (c : Cell) : (revealCell c).state.adjacent = c.state.adjacent := rfl

theorem revealCell_is_revealed (c : Cell) : (revealCell c).state.is_revealed = true := rfl

theorem revealCell_is_flagged (c : Cell) : (revealCell c).state.is_flagged = false := rfl

theorem revealCell_col (c : Cell) : (revealCell c).col = c.col := rfl

theorem revealCell_row (c : Cell) : (revealCell c).row = c.row := rfl

theorem flagFlipCell_is_mine (c : Cell) : (flagFlipCell c).state.is_mine = c.state.is_mine := rfl

theorem flagFlipCell_is_revealed (c : Cell) :
    (flagFlipCell c).state.is_revealed = c.state.is_revealed := rfl

theorem revealAt_cells (b : Board) (p : Pos) :
    (b.revealAt p).cells = b.cells.set (b.index p.1 p.2) (revealCell (cellAt b (b.index p.1 p.2))) :=
  rfl

theorem revealAt_cols (b : Board) (p : Pos) : (b.revealAt p).cols = b.cols := rfl

theorem revealAt_rows (b : Board) (p : Pos) : (b.revealAt p).rows = b.rows := rfl

theorem revealAt_game_over (b : Board) (p : Pos) : (b.revealAt p).game_over = b.game_over := rfl

theorem revealAt_win (b : Board) (p : Pos) : (b.revealAt p).win = b.win := rfl

theorem revealAt_length (b : Board) (p : Pos) : (b.revealAt p).cells.length = b.cells.length :=
  List.length_set b.cells _ _

theorem recompute_win_cells (b : Board) : b.recompute_win.cells = b.cells := rfl

theorem recompute_win_cols (b : Board) : b.recompute_win.cols = b.cols := rfl

theorem recompute_win_rows (b : Board) : b.recompute_win.rows = b.rows := rfl

theorem recompute_win_game_over (b : Board) : b.recompute_win.game_over = b.game_over := rfl

theorem recompute_win_win (b : Board) : b.recompute_win.win = allSafeRevealed b := rfl

theorem allSafe_congr_cells (b1 b2 : Board) (h : b1.cells = b2.cells) :
    allSafeRevealed b1 = allSafeRevealed b2 := by
  unfold allSafeRevealed
  rw [h]

theorem cellAt_def (b : Board) (i : Nat) : b.cells.getD i default = cellAt b i := rfl

theorem setGameOver_cells (b : Board) : ({ b with game_over := true } : Board).cells = b.cells :=
  rfl

theorem allSafe_revealAt_of_mine (b : Board) (p : Pos)
    (hm : (b.getCell p.1 p.2).state.is_mine = true) :
    allSafeRevealed (b.revealAt p) = allSafeRevealed b := by
  have hm4 : (cellAt b (b.index p.1 p.2)).state.is_mine = true := hm
  unfold allSafeRevealed
  rw [revealAt_cells]
  apply all_set_congr
  dsimp only
  by_cases hlen : b.index p.1 p.2 < b.cells.length
  · rw [getD_indep _ _ _ default hlen, cellAt_def]
    simp only [revealCell_is_mine, revealCell_is_revealed, hm4, Bool.true_or, Bool.or_true]
  · rw [List.getD_eq_default _ _ (by omega)]

theorem allSafe_flagToggleAt (b : Board) (p : Pos) :
    allSafeRevealed (b.flagToggleAt p) = allSafeRevealed b := by
  unfold allSafeRevealed Board.flagToggleAt
  apply all_set_congr
  dsimp only
  by_cases hlen : b.index p.1 p.2 < b.cells.length
  · rw [getD_indep _ _ _ default hlen, cellAt_def]
    simp only [flagFlipCell_is_mine, flagFlipCell_is_revealed]
  · rw [List.getD_eq_default _ _ (by omega)]

theorem floodFill_scalars (fuel : Nat) : ∀ (b : Board) (work visited : List Pos),
    (b.floodFill work visited fuel).1.cols = b.cols ∧
    (b.floodFill work visited fuel).1.rows = b.rows ∧
    (b.floodFill work visited fuel).1.mine_count = b.mine_count ∧
    (b.floodFill work visited fuel).1.game_over = b.game_over ∧
    (b.floodFill work visited fuel).1.win = b.win ∧
    (b.floodFill work visited fuel).1.cells.length = b.cells.length := by
  induction fuel with
  | zero =>
    intro b work visited
    simp [Board.floodFill]
  | succ n ih =>
    intro b work visited
    cases work with
    | nil => simp [Board.floodFill]
    | cons p work =>
      simp only [Board.floodFill]
      split
      · exact ih b work visited
      · split
        · exact ih b work (p :: visited)
        · split
          · have h := ih (b.revealAt p) (work ++ nbrs b.cols b.rows p) (p :: visited)
            simpa [Board.revealAt] using h
          · have h := ih (b.revealAt p) work (p :: visited)
            simpa [Board.revealAt] using h

theorem allSafe_iff (b : Board) :
    allSafeRevealed b = true ↔
      ∀ cell ∈ b.cells, cell.state.is_mine = false → cell.state.is_revealed = true := by
  unfold allSafeRevealed
  rw [List.all_eq_true]
  constructor
  · intro h cell hmem hm
    have := h cell hmem
    rw [hm] at this
    simpa using this
  · intro h cell hmem
    cases hmine : cell.state.is_mine with
    | true => simp [hmine]
    | false => simp [h cell hmem hmine]

theorem toggle_flag_inv (b : Board) (c r : Nat) (hInv : Inv b) : Inv (b.toggle_flag c r) := by
  unfold Board.toggle_flag
  split
  · exact hInv
  · split
    · split
      · exact hInv
      · constructor
        · show b.win = allSafeRevealed (b.flagToggleAt (c, r))
          rw [allSafe_flagToggleAt]
          exact hInv.1
        · exact hInv.2
    · exact hInv

theorem reveal_inv (b : Board) (c r : Nat) (hInv : Inv b) : Inv (b.reveal c r) := by
  unfold Board.reveal
  split
  · exact hInv
  · next hterm =>
    have hwin : b.win = false := by
      cases hw : b.win
      · rfl
      · exact absurd (by simp [hw]) hterm
    split
    · split
      · exact hInv
      · split
        · next hm =>
          constructor
          · rfl
          · intro hboth
            have : allSafeRevealed { b.revealAt (c, r) with game_over := true } = b.win := by
              show allSafeRevealed (b.revealAt (c, r)) = b.win
              rw [allSafe_revealAt_of_mine b (c, r) hm, hInv.1]
            have hw' := hboth.2
            simp only [Board.recompute_win] at hw'
            rw [this, hwin] at hw'
            exact Bool.false_ne_true hw'
        · constructor
          · rfl
          · intro hboth
            have hgo := hboth.1
            have hgof : b.game_over = false := by
              cases hg : b.game_over
              · rfl
              · exact absurd (by simp [hg]) hterm
            have := (floodFill_scalars (9 * (b.cols * b.rows) + 1) b [(c, r)] []).2.2.2.1
            simp only [Board.recompute_win] at hgo
            rw [this, hgof] at hgo
            exact Bool.false_ne_true hgo
    · exact hInv

theorem applyOp_inv (b : Board) (op : Op) (hInv : Inv b) : Inv (applyOp b op) := by
  cases op with
  | rev c r => exact reveal_inv b c r hInv
  | flag c r => exact toggle_flag_inv b c r hInv

theorem applyOp_terminal (b : Board) (op : Op) (h : b.game_over = true ∨ b.win = true) :
    applyOp b op = b := by
  have hb : (b.game_over || b.win) = true := by rcases h with h | h <;> simp [h]
  cases op with
  | rev c r =>
    show b.reveal c r = b
    unfold Board.reveal
    simp [hb]
  | flag c r =>
    show b.toggle_flag c r = b
    unfold Board.toggle_flag
    simp [hb]

theorem runOps_inv (b : Board) (ops : List Op) (hInv : Inv b) : Inv (runOps b ops) := by
  induction ops generalizing b with
  | nil => exact hInv
  | cons op ops ih => exact ih (applyOp b op) (applyOp_inv b op hInv)

theorem runOps_terminal (b : Board) (ops : List Op) (h : b.game_over = true ∨ b.win = true) :
    runOps b ops = b := by
  induction ops generalizing b with
  | nil => rfl
  | cons op ops ih =>
    show runOps (applyOp b op) ops = b
    rw [applyOp_terminal b op h]
    exact ih b h

/-- C4: over any sequence of `reveal`/`toggle_flag` operations from a board
satisfying the state invariant, the two terminal flags are never
simultaneously true, each flag is monotone (once true it stays true), and
every operation invoked on a terminal board leaves the board unchanged. -/
theorem claim_C4_terminal_invariants (b : Board) (ops : List Op) (hInv : Inv b) :
    ¬((runOps b ops).game_over = true ∧ (runOps b ops).win = true) ∧
    (b.game_over = true → (runOps b ops).game_over = true) ∧
    (b.win = true → (runOps b ops).win = true) ∧
    ((b.game_over = true ∨ b.win = true) → runOps b ops = b) := by
  refine ⟨(runOps_inv b ops hInv).2, ?_, ?_, runOps_terminal b ops⟩
  · intro h
    rw [runOps_terminal b ops (Or.inl h)]
    exact h
  · intro h
    rw [runOps_terminal b ops (Or.inr h)]
    exact h

theorem claim_C4_terminal_invariants_witness :
    ¬((runOps exBoard2 [Op.rev 0 0, Op.rev 1 1]).game_over = true ∧
        (runOps exBoard2 [Op.rev 0 0, Op.rev 1 1]).win = true) :=
  (claim_C4_terminal_invariants exBoard2 [Op.rev 0 0, Op.rev 1 1] (by decide)).1

/-- C2: after any `reveal` call on a board satisfying the state invariant,
the win flag is true iff every non-mine cell is revealed, and the call
changes `game_over` only when the revealed target itself is a mine. -/
theorem claim_C2_win_recompute (b : Board) (c r : Nat) (hInv : Inv b) :
    ((b.reveal c r).win = true ↔
      ∀ cell ∈ (b.reveal c r).cells, cell.state.is_mine = false →
        cell.state.is_revealed = true) ∧
    ((b.reveal c r).game_over = b.game_over ∨
      ((b.getCell c r).state.is_mine = true ∧ (b.reveal c r).game_over = true)) := by
  unfold Board.reveal
  split
  · exact ⟨by rw [hInv.1, allSafe_iff], Or.inl rfl⟩
  · split
    · split
      · exact ⟨by rw [hInv.1, allSafe_iff], Or.inl rfl⟩
      · split
        · next hm =>
          refine ⟨?_, Or.inr ⟨hm, rfl⟩⟩
          show allSafeRevealed _ = true ↔ _
          rw [allSafe_iff, recompute_win_cells]
        · refine ⟨?_, Or.inl ?_⟩
          · show allSafeRevealed _ = true ↔ _
            rw [allSafe_iff, recompute_win_cells]
          · show ((b.floodFill [(c, r)] [] (9 * (b.cols * b.rows) + 1)).1).game_over = b.game_over
            exact (floodFill_scalars _ b _ _).2.2.2.1
    · exact ⟨by rw [hInv.1, allSafe_iff], Or.inl rfl⟩

theorem index_lt (cols rows c r : Nat) (h1 : c < cols) (h2 : r < rows) :
    r * cols + c < cols * rows := by
  have h3 : r + 1 ≤ rows := h2
  calc r * cols + c < (r + 1) * cols := by nlinarith
  _ ≤ rows * cols := Nat.mul_le_mul_right cols h3
  _ = cols * rows := Nat.mul_comm rows cols

theorem posOf_index (cols c r : Nat) (h : c < cols) :
    posOf cols (r * cols + c) = (c, r) := by
  have hc : 0 < cols := by omega
  unfold posOf
  have h1 : (r * cols + c) % cols = c := by
    rw [Nat.mul_comm r cols, Nat.mul_add_mod]
    exact Nat.mod_eq_of_lt h
  have h2 : (r * cols + c) / cols = r := by
    rw [Nat.mul_comm r cols, Nat.mul_add_div hc]
    simp [Nat.div_eq_of_lt h]
  rw [h1, h2]

theorem index_inj (cols c1 r1 c2 r2 : Nat) (h1 : c1 < cols) (h2 : c2 < cols)
    (h : r1 * cols + c1 = r2 * cols + c2) : c1 = c2 ∧ r1 = r2 := by
  have hp := congrArg (posOf cols) h
  rw [posOf_index cols c1 r1 h1, posOf_index cols c2 r2 h2] at hp
  exact ⟨congrArg Prod.fst hp, congrArg Prod.snd hp⟩

theorem index_lt_length (b : Board) (c r : Nat) (hWF : WF b) (hc : c < b.cols)
    (hr : r < b.rows) : b.index c r < b.cells.length := by
  rw [hWF.2.2.1]
  exact index_lt b.cols b.rows c r hc hr

theorem cellAt_revealAt_self (b : Board) (p : Pos) (hlen : b.index p.1 p.2 < b.cells.length) :
    cellAt (b.revealAt p) (b.index p.1 p.2) = revealCell (cellAt b (b.index p.1 p.2)) := by
  unfold cellAt
  rw [revealAt_cells]
  exact getD_set_self _ _ _ _ hlen

theorem cellAt_revealAt_ne (b : Board) (p : Pos) (i : Nat) (hne : i ≠ b.index p.1 p.2) :
    cellAt (b.revealAt p) i = cellAt b i := by
  unfold cellAt
  rw [revealAt_cells]
  exact getD_set_ne _ _ _ _ _ (fun h => hne h.symm)

theorem index_ne_of_ne (b : Board) (p q : Pos) (hp : inB b.cols b.rows p)
    (hq : inB b.cols b.rows q) (hne : q ≠ p) : b.index q.1 q.2 ≠ b.index p.1 p.2 := by
  intro h
  have := index_inj b.cols q.1 q.2 p.1 p.2 hq.1 hp.1 h
  exact hne (Prod.ext this.1 this.2)

/-- C3: on an Active board, revealing an in-bounds, unrevealed, unflagged
mine reveals exactly that cell, sets `game_over`, leaves `win` false, and
changes no other cell. -/
theorem claim_C3_mine_reveal (b : Board) (c r : Nat) (hWF : WF b) (hInv : Inv b)
    (hgo : b.game_over = false) (hw : b.win = false)
    (hc : c < b.cols) (hr : r < b.rows)
    (hrev : (b.getCell c r).state.is_revealed = false)
    (hfl : (b.getCell c r).state.is_flagged = false)
    (hm : (b.getCell c r).state.is_mine = true) :
    ((b.reveal c r).getCell c r).state.is_revealed = true ∧
    (b.reveal c r).game_over = true ∧
    (b.reveal c r).win = false ∧
    ∀ p : Pos, inB b.cols b.rows p → p ≠ (c, r) →
      (b.reveal c r).getCell p.1 p.2 = b.getCell p.1 p.2 := by
  have h1 : ¬((b.game_over || b.win) = true) := by simp [hgo, hw]
  have h2 : ¬(((b.getCell c r).state.is_revealed || (b.getCell c r).state.is_flagged) = true) := by
    simp [hrev, hfl]
  have hred : b.reveal c r = Board.recompute_win { b.revealAt (c, r) with game_over := true } := by
    unfold Board.reveal
    rw [if_neg h1, if_pos ⟨hc, hr⟩, if_neg h2, if_pos hm]
  have hlen : b.index c r < b.cells.length := index_lt_length b c r hWF hc hr
  rw [hred]
  refine ⟨?_, rfl, ?_, ?_⟩
  · show (cellAt (b.revealAt (c, r)) (b.index c r)).state.is_revealed = true
    have hself := cellAt_revealAt_self b (c, r) hlen
    rw [show b.index (c, r).1 (c, r).2 = b.index c r from rfl] at hself
    rw [hself]
    exact revealCell_is_revealed _
  · show allSafeRevealed { b.revealAt (c, r) with game_over := true } = false
    rw [allSafe_congr_cells _ (b.revealAt (c, r)) (setGameOver_cells _)]
    rw [allSafe_revealAt_of_mine b (c, r) hm]
    rw [← hInv.1]
    exact hw
  · intro p hpB hne
    show cellAt (b.revealAt (c, r)) (b.index p.1 p.2) = cellAt b (b.index p.1 p.2)
    apply cellAt_revealAt_ne
    exact index_ne_of_ne b (c, r) p ⟨hc, hr⟩ hpB hne

theorem claim_C3_mine_reveal_witness :
    ((exBoard2.reveal 0 0).getCell 0 0).state.is_revealed = true ∧
    (exBoard2.reveal 0 0).game_over = true ∧
    (exBoard2.reveal 0 0).win = false ∧
    ∀ p : Pos, inB exBoard2.cols exBoard2.rows p → p ≠ (0, 0) →
      (exBoard2.reveal 0 0).getCell p.1 p.2 = exBoard2.getCell p.1 p.2 :=
  claim_C3_mine_reveal exBoard2 0 0 (by decide) (by decide) (by decide) (by decide)
    (by decide) (by decide) (by decide) (by decide) (by decide)

theorem countP_congr_mem {α : Type} (l : List α) (p q : α → Bool)
    (h : ∀ x ∈ l, p x = q x) : l.countP p = l.countP q := by
  induction l with
  | nil => rfl
  | cons x xs ih =>
    rw [List.countP_cons, List.countP_cons, h x (by simp),
      ih (fun y hy => h y (by simp [hy]))]

theorem countP_or_disjoint {α : Type} (l : List α) (p q : α → Bool)
    (h : ∀ x ∈ l, ¬(p x = true ∧ q x = true)) :
    l.countP (fun x => p x || q x) = l.countP p + l.countP q := by
  induction l with
  | nil => rfl
  | cons x xs ih =>
    rw [List.countP_cons, List.countP_cons, List.countP_cons,
      ih (fun y hy => h y (by simp [hy]))]
    by_cases hp : p x = true
    · by_cases hq : q x = true
      · exact absurd ⟨hp, hq⟩ (h x (by simp))
      · simp [hp, hq]
        omega
    · by_cases hq : q x = true
      · simp [hp, hq]
        omega
      · simp [hp, hq]

theorem mem_nbrs (cols rows : Nat) (p q : Pos) :
    q ∈ nbrs cols rows p ↔
      q.1 < cols ∧ q.2 < rows ∧ q ≠ p ∧
        ((q.1 : Int) - (p.1 : Int)).natAbs ≤ 1 ∧ ((q.2 : Int) - (p.2 : Int)).natAbs ≤ 1 := by
  obtain ⟨p1, p2⟩ := p
  obtain ⟨q1, q2⟩ := q
  unfold nbrs
  rw [List.mem_filterMap]
  simp only [Ne, Prod.mk.injEq]
  constructor
  · rintro ⟨d, hd, hf⟩
    simp only [neighborOffsets, List.mem_cons, List.not_mem_nil, or_false] at hd
    rcases hd with h | h | h | h | h | h | h | h <;> subst h <;>
      (dsimp only at hf ⊢
       split at hf
       · next hcond =>
         rw [Option.some.injEq, Prod.mk.injEq] at hf
         obtain ⟨hf1, hf2⟩ := hf
         refine ⟨?_, ?_, ?_, ?_, ?_⟩ <;> omega
       · exact absurd hf (by simp))
  · rintro ⟨hq1, hq2, hne, h1, h2⟩
    refine ⟨((q1 : Int) - (p1 : Int), (q2 : Int) - (p2 : Int)), ?_, ?_⟩
    · simp only [neighborOffsets, List.mem_cons, List.not_mem_nil, or_false, Prod.mk.injEq]
      omega
    · dsimp only
      rw [if_pos (by omega)]
      rw [Option.some.injEq, Prod.mk.injEq]
      constructor <;> omega

theorem chebDist_eq_one_iff (p q : Pos) :
    chebDist p q = 1 ↔
      q ≠ p ∧ ((q.1 : Int) - (p.1 : Int)).natAbs ≤ 1 ∧
        ((q.2 : Int) - (p.2 : Int)).natAbs ≤ 1 := by
  obtain ⟨p1, p2⟩ := p
  obtain ⟨q1, q2⟩ := q
  unfold chebDist
  simp only [Ne, Prod.mk.injEq]
  omega

theorem nbrs_nodup (cols rows : Nat) (p : Pos) : (nbrs cols rows p).Nodup := by
  unfold nbrs
  apply List.Nodup.filterMap
  · intro a a' q ha ha'
    simp only [Option.mem_def] at ha ha'
    split at ha
    · next hc =>
      split at ha'
      · next hc' =>
        rw [Option.some.injEq] at ha ha'
        obtain ⟨a1, a2⟩ := a
        obtain ⟨b1, b2⟩ := a'
        rw [Prod.mk.injEq]
        have e1 := congrArg Prod.fst ha
        have e2 := congrArg Prod.snd ha
        have e1' := congrArg Prod.fst ha'
        have e2' := congrArg Prod.snd ha'
        dsimp at e1 e2 e1' e2' hc hc'
        constructor <;> omega
      · exact absurd ha' (by simp)
    · exact absurd ha (by simp)
  · decide

theorem posOf_eq_iff (cols i : Nat) (m : Pos) (hm1 : m.1 < cols) :
    posOf cols i = m ↔ i = m.2 * cols + m.1 := by
  constructor
  · intro h
    have h1 : i % cols = m.1 := congrArg Prod.fst h
    have h2 : i / cols = m.2 := congrArg Prod.snd h
    have h3 := Nat.div_add_mod i cols
    rw [h1, h2, Nat.mul_comm cols m.2] at h3
    omega
  · intro h
    subst h
    exact posOf_index cols m.1 m.2 hm1

theorem countP_range_eq_self (n idx : Nat) (h : idx < n) :
    (List.range n).countP (fun i => decide (i = idx)) = 1 := by
  induction n with
  | zero => omega
  | succ k ih =>
    rw [List.range_succ, List.countP_append]
    by_cases hk : idx = k
    · subst hk
      have hz : (List.range idx).countP (fun i => decide (i = idx)) = 0 := by
        rw [List.countP_eq_zero]
        intro a ha
        have : a < idx := List.mem_range.mp ha
        simp
        omega
      rw [hz]
      simp
    · rw [ih (by omega)]
      have hz : ([k] : List Nat).countP (fun i => decide (i = idx)) = 0 := by
        rw [List.countP_eq_zero]
        intro a ha
        simp at ha
        subst ha
        simp
        omega
      rw [hz]

theorem countP_range_posOf_eq (cols rows : Nat) (m : Pos) (hm1 : m.1 < cols)
    (hm2 : m.2 < rows) :
    (List.range (cols * rows)).countP (fun i => decide (posOf cols i = m)) = 1 := by
  rw [countP_congr_mem _ _ (fun i => decide (i = m.2 * cols + m.1))
    (fun i _ => by simp [posOf_eq_iff cols i m hm1])]
  exact countP_range_eq_self _ _ (index_lt cols rows m.1 m.2 hm1 hm2)

theorem countP_range_mem_mines (cols rows : Nat) (mines : List Pos) (hnd : mines.Nodup)
    (hin : ∀ p ∈ mines, p.1 < cols ∧ p.2 < rows) :
    (List.range (cols * rows)).countP (fun i => decide (posOf cols i ∈ mines))
      = mines.length := by
  induction mines with
  | nil => simp
  | cons m ms ih =>
    have hnd' := List.nodup_cons.mp hnd
    have hsplit : (List.range (cols * rows)).countP (fun i => decide (posOf cols i ∈ m :: ms))
        = (List.range (cols * rows)).countP
            (fun i => decide (posOf cols i = m) || decide (posOf cols i ∈ ms)) :=
      countP_congr_mem _ _ _ (fun x _ => by simp [List.mem_cons])
    rw [hsplit, countP_or_disjoint _ _ _ (fun i _ hboth => by
      have h1 : posOf cols i = m := by simpa using hboth.1
      have h2 : posOf cols i ∈ ms := by simpa using hboth.2
      rw [h1] at h2
      exact hnd'.1 h2)]
    have hm := hin m (by simp)
    rw [countP_range_posOf_eq cols rows m hm.1 hm.2,
      ih hnd'.2 (fun p hp => hin p (by simp [hp]))]
    simp [Nat.add_comm]

theorem getD_map_range {α : Type} (n i : Nat) (f : Nat → α) (d : α) (h : i < n) :
    ((List.range n).map f).getD i d = f i := by
  induction n with
  | zero => omega
  | succ k ih =>
    by_cases hk : i = k
    · subst hk
      rw [List.range_succ, List.map_append]
      have hlen : ((List.range i).map f).length = i := by simp
      rw [List.getD_eq_getElem?_getD, List.getElem?_append_right (by omega)]
      simp
    · rw [List.range_succ, List.map_append]
      rw [List.getD_eq_getElem?_getD, List.getElem?_append]
      rw [if_pos (by simp; omega)]
      rw [← List.getD_eq_getElem?_getD]
      exact ih (by omega)

theorem cellAt_mkBoard (cols rows mc : Nat) (mines : List Pos) (i : Nat)
    (h : i < cols * rows) :
    cellAt (mkBoard cols rows mc mines) i = mkCell cols rows mines i := by
  unfold cellAt mkBoard
  exact getD_map_range _ _ _ _ h

theorem adjacent_count_eq (cols rows : Nat) (p : Pos) (mines : List Pos)
    (hnd : mines.Nodup) :
    (nbrs cols rows p).countP (fun q => decide (q ∈ mines))
      = mines.countP (fun q => decide (q.1 < cols ∧ q.2 < rows ∧ chebDist p q = 1)) := by
  rw [List.countP_eq_length_filter, List.countP_eq_length_filter]
  have h1 : ((nbrs cols rows p).filter (fun q => decide (q ∈ mines))).Nodup :=
    (nbrs_nodup cols rows p).filter _
  have h2 : (mines.filter
      (fun q => decide (q.1 < cols ∧ q.2 < rows ∧ chebDist p q = 1))).Nodup :=
    hnd.filter _
  rw [← List.toFinset_card_of_nodup h1, ← List.toFinset_card_of_nodup h2]
  have hset : ((nbrs cols rows p).filter (fun q => decide (q ∈ mines))).toFinset
      = (mines.filter
          (fun q => decide (q.1 < cols ∧ q.2 < rows ∧ chebDist p q = 1))).toFinset := by
    ext q
    simp only [List.mem_toFinset, List.mem_filter, decide_eq_true_eq]
    rw [mem_nbrs, chebDist_eq_one_iff]
    constructor
    · rintro ⟨⟨hc, hr, hrest⟩, hq⟩
      exact ⟨hq, hc, hr, hrest⟩
    · rintro ⟨hq, hc, hr, hrest⟩
      exact ⟨⟨hc, hr, hrest⟩, hq⟩
  rw [hset]

/-- C5: after a successful construction with a valid random placement
(distinct in-bounds mine positions, as many as the mine count), the board has
exactly `mine_count` mines, every cell's adjacency count equals the number of
mines among its in-bounds Chebyshev-distance-1 neighbors, every cell is
unrevealed and unflagged, and both terminal flags are false. -/
theorem claim_C5_construction (cols rows mc : Nat) (mines : List Pos) (b : Board)
    (hmk : Board.make (cols : Int) (rows : Int) (mc : Int) mines = some b)
    (hnd : mines.Nodup) (hlen : mines.length = mc)
    (hin : ∀ p ∈ mines, p.1 < cols ∧ p.2 < rows) :
    b.cells.countP (fun cell => cell.state.is_mine) = mc ∧
    (∀ i < cols * rows, (cellAt b i).state.adjacent
      = mines.countP (fun q =>
          decide (q.1 < cols ∧ q.2 < rows ∧ chebDist (posOf cols i) q = 1))) ∧
    (∀ cell ∈ b.cells, cell.state.is_revealed = false ∧ cell.state.is_flagged = false) ∧
    b.game_over = false ∧ b.win = false := by
  have hb : b = mkBoard cols rows mc mines := by
    unfold Board.make at hmk
    split at hmk
    · exact absurd hmk (by simp)
    · have h := Option.some.inj hmk
      rw [← h]
      norm_num
  subst hb
  refine ⟨?_, ?_, ?_, rfl, rfl⟩
  · show ((List.range (cols * rows)).map (mkCell cols rows mines)).countP _ = mc
    rw [List.countP_map]
    rw [show ((fun cell => cell.state.is_mine) ∘ mkCell cols rows mines)
        = fun i => decide (posOf cols i ∈ mines) from rfl]
    rw [countP_range_mem_mines cols rows mines hnd hin]
    exact hlen
  · intro i hi
    rw [cellAt_mkBoard cols rows mc mines i hi]
    show (nbrs cols rows (posOf cols i)).countP (fun q => decide (q ∈ mines)) = _
    exact adjacent_count_eq cols rows (posOf cols i) mines hnd
  · intro cell hmem
    obtain ⟨i, _, rfl⟩ := List.mem_map.mp hmem
    exact ⟨rfl, rfl⟩

theorem claim_C5_construction_witness :
    (mkBoard 2 2 1 [(0, 0)]).cells.countP (fun cell => cell.state.is_mine) = 1 ∧
    (mkBoard 2 2 1 [(0, 0)]).game_over = false :=
  have h := claim_C5_construction 2 2 1 [(0, 0)] (mkBoard 2 2 1 [(0, 0)])
    (by decide) (by decide) (by decide) (by decide)
  ⟨h.1, h.2.2.2.1⟩

theorem claim_C2_win_recompute_witness :
    (exBoard3.reveal 0 0).win = true ∧ (exBoard3.reveal 0 0).game_over = exBoard3.game_over := by
  have h := claim_C2_win_recompute exBoard3 0 0 (by decide)
  refine ⟨h.1.mpr (by decide), ?_⟩
  rcases h.2 with h2 | h2
  · exact h2
  · exact absurd h2.1 (by decide)

theorem update_button_states_board (g : Game) : (Game.update_button_states g).board = g.board :=
  rfl

theorem update_button_states_hint (g : Game) :
    (Game.update_button_states g).hint_available = g.hint_available := rfl

/-- C9: `reset` and both branches of `set_difficulty` install a brand-new
`Board(config.cols, config.rows, config.num_mines)` as the game's board and
hand it to the renderer; afterwards the game is not started, the timers are
zero and the hint is available again; the Restart button dispatches to
`reset`. -/
theorem claim_C9_reset_fresh_board (g : Game) (name : String) (btn : UIButton)
    (cfg : Config) (mines : List Pos) (k now : Nat)
    (hbd : btn.disabled = false) (hbk : btn.kind = "restart") :
    (g.reset cfg mines).board = mkBoard cfg.cols cfg.rows cfg.num_mines mines ∧
    (g.reset cfg mines).renderer_board = mkBoard cfg.cols cfg.rows cfg.num_mines mines ∧
    (g.reset cfg mines).started = false ∧
    (g.reset cfg mines).start_ticks_ms = 0 ∧
    (g.reset cfg mines).end_ticks_ms = 0 ∧
    (g.reset cfg mines).hint_available = true ∧
    (g.set_difficulty name cfg mines).board = mkBoard cfg.cols cfg.rows cfg.num_mines mines ∧
    (g.set_difficulty name cfg mines).started = false ∧
    (g.set_difficulty name cfg mines).hint_available = true ∧
    g.handle_button btn cfg mines k now = g.reset cfg mines := by
  have hsd : ∀ g' : Game, (g'.set_difficulty name cfg mines).board
      = mkBoard cfg.cols cfg.rows cfg.num_mines mines := by
    intro g'
    unfold Game.set_difficulty
    split <;> rfl
  have hsd2 : (g.set_difficulty name cfg mines).started = false := by
    unfold Game.set_difficulty
    split <;> rfl
  have hsd3 : (g.set_difficulty name cfg mines).hint_available = true := by
    unfold Game.set_difficulty
    split <;> rfl
  refine ⟨rfl, rfl, rfl, rfl, rfl, rfl, hsd g, hsd2, hsd3, ?_⟩
  unfold Game.handle_button
  rw [if_neg (by simp [hbd]), if_neg (by simp [hbk]), if_neg (by simp [hbk]),
    if_pos hbk]

theorem claim_C9_reset_fresh_board_witness :
    (exGame.reset exConfig [(0, 0)]).board = mkBoard 2 2 1 [(0, 0)] ∧
    exGame.handle_button exRestartBtn exConfig [(0, 0)] 0 0 = exGame.reset exConfig [(0, 0)] := by
  have h := claim_C9_reset_fresh_board exGame "Easy" exRestartBtn exConfig [(0, 0)] 0 0
    (by decide) (by decide)
  exact ⟨h.1, h.2.2.2.2.2.2.2.2.2⟩

theorem getCell_of_mem (b : Board) (hWF : WF b) (cell : Cell) (hmem : cell ∈ b.cells) :
    b.getCell cell.col cell.row = cell ∧ cell.col < b.cols ∧ cell.row < b.rows := by
  obtain ⟨i, hi, hcell⟩ := List.mem_iff_getElem.mp hmem
  have hin : i < b.cols * b.rows := by rw [← hWF.2.2.1]; exact hi
  have hcells : cellAt b i = cell := by
    unfold cellAt
    rw [List.getD_eq_getElem?_getD, List.getElem?_eq_getElem hi]
    simpa using hcell
  have hco := (hWF.2.2.2 i (List.mem_range.mpr hin)).1
  have hro := (hWF.2.2.2 i (List.mem_range.mpr hin)).2
  rw [hcells] at hco hro
  have hclt : cell.col < b.cols := by rw [hco]; exact Nat.mod_lt i hWF.1
  have hrlt : cell.row < b.rows := by
    rw [hro]
    rw [Nat.div_lt_iff_lt_mul hWF.1]
    calc i < b.cols * b.rows := hin
    _ = b.rows * b.cols := Nat.mul_comm _ _
  refine ⟨?_, hclt, hrlt⟩
  have hidx : b.index cell.col cell.row = i := by
    unfold Board.index
    rw [hco, hro]
    have := Nat.div_add_mod i b.cols
    rw [Nat.mul_comm b.cols (i / b.cols)] at this
    omega
  unfold Board.getCell
  rw [hidx]
  exact hcells

theorem use_hint_spent (g : Game) (k now : Nat) (h : g.hint_available = false) :
    g.use_hint k now = g := by
  unfold Game.use_hint
  rw [if_pos (by simp [h])]

theorem reveal_game_over_of_not_mine (b : Board) (c r : Nat)
    (hm : (b.getCell c r).state.is_mine = false) :
    (b.reveal c r).game_over = b.game_over := by
  unfold Board.reveal
  split
  · rfl
  · split
    · split
      · rfl
      · split
        · next hmt => rw [hm] at hmt; exact absurd hmt (by simp)
        · rw [recompute_win_game_over]
          exact (floodFill_scalars _ b _ _).2.2.2.1
    · rfl

/-- C10: when the hint is available on a non-terminal board with at least one
safe cell, the cell `use_hint` passes to `reveal` is non-mine, unrevealed and
unflagged; the call cannot set `game_over`; the hint is spent afterwards, so
a second `use_hint` is a no-op. -/
theorem claim_C10_hint_safe (g : Game) (k now : Nat) (hWF : WF g.board)
    (hha : g.hint_available = true) (hgo : g.board.game_over = false)
    (hw : g.board.win = false) (hne : g.safe_cells ≠ []) :
    (g.board.getCell (g.hint_target k).1 (g.hint_target k).2).state.is_mine = false ∧
    (g.board.getCell (g.hint_target k).1 (g.hint_target k).2).state.is_revealed = false ∧
    (g.board.getCell (g.hint_target k).1 (g.hint_target k).2).state.is_flagged = false ∧
    (g.use_hint k now).board
      = g.board.reveal (g.hint_target k).1 (g.hint_target k).2 ∧
    (g.use_hint k now).board.game_over = false ∧
    (g.use_hint k now).hint_available = false ∧
    ∀ k' now', (g.use_hint k now).use_hint k' now' = g.use_hint k now := by
  have hlen0 : 0 < g.safe_cells.length := by
    cases hsc : g.safe_cells with
    | nil => exact absurd hsc hne
    | cons a l => simp [hsc]
  have hmem : g.hint_target k ∈ g.safe_cells := by
    unfold Game.hint_target
    rw [List.getD_eq_getElem?_getD, List.getElem?_eq_getElem (Nat.mod_lt _ hlen0)]
    exact List.getElem_mem _
  obtain ⟨cell, hcm, heq⟩ := List.mem_map.mp hmem
  obtain ⟨hcmem, hcp⟩ := List.mem_filter.mp hcm
  have hprops : cell.state.is_mine = false ∧ cell.state.is_revealed = false ∧
      cell.state.is_flagged = false := by
    simp only [Bool.and_eq_true, Bool.not_eq_true'] at hcp
    exact ⟨hcp.1.1, hcp.1.2, hcp.2⟩
  have hget := getCell_of_mem g.board hWF cell hcmem
  have hc1 : (g.hint_target k).1 = cell.col := by rw [← heq]
  have hc2 : (g.hint_target k).2 = cell.row := by rw [← heq]
  have hgc : g.board.getCell (g.hint_target k).1 (g.hint_target k).2 = cell := by
    rw [hc1, hc2]
    exact hget.1
  have hE : g.safe_cells.isEmpty = false := by
    cases hsc : g.safe_cells with
    | nil => exact absurd hsc hne
    | cons a l => rfl
  have h1 : ¬((!g.hint_available || g.board.game_over || g.board.win) = true) := by
    simp [hha, hgo, hw]
  have hboard : (g.use_hint k now).board
      = g.board.reveal (g.hint_target k).1 (g.hint_target k).2 := by
    unfold Game.use_hint
    rw [if_neg h1, if_neg (by simp [hE])]
    show (Game.update_button_states _).board = _
    rw [update_button_states_board]
    split <;> rfl
  have hhint : (g.use_hint k now).hint_available = false := by
    unfold Game.use_hint
    rw [if_neg h1, if_neg (by simp [hE])]
    show (Game.update_button_states _).hint_available = false
    rw [update_button_states_hint]
  refine ⟨by rw [hgc]; exact hprops.1, by rw [hgc]; exact hprops.2.1,
    by rw [hgc]; exact hprops.2.2, hboard, ?_, hhint, ?_⟩
  · rw [hboard, reveal_game_over_of_not_mine _ _ _ (by rw [hgc]; exact hprops.1)]
    exact hgo
  · intro k' now'
    exact use_hint_spent _ k' now' hhint

theorem claim_C10_hint_safe_witness :
    (exGame.use_hint 0 5).hint_available = false ∧
    (exGame.use_hint 0 5).board.game_over = false := by
  have h := claim_C10_hint_safe exGame 0 5 (by decide) (by decide) (by decide)
    (by decide) (by decide)
  exact ⟨h.2.2.2.2.2.1, h.2.2.2.2.1⟩

/-- C8: `pos_to_grid` returns either the sentinel `(-1, -1)` or a pair of
in-bounds board coordinates, and when it returns the sentinel (and no UI
button is hit) `handle_mouse` leaves the game, in particular its board,
unchanged — so the board is only ever called with in-bounds coordinates from
mouse input. -/
theorem claim_C8_input_bounds (g : Game) (cfg : Config) (x y : Int) (pos : Int × Int)
    (button : Nat) (mines : List Pos) (k now : Nat) :
    (pos_to_grid cfg g.board.cols g.board.rows x y = (-1, -1) ∨
      (0 ≤ (pos_to_grid cfg g.board.cols g.board.rows x y).1 ∧
        (pos_to_grid cfg g.board.cols g.board.rows x y).1 < (g.board.cols : Int) ∧
        0 ≤ (pos_to_grid cfg g.board.cols g.board.rows x y).2 ∧
        (pos_to_grid cfg g.board.cols g.board.rows x y).2 < (g.board.rows : Int))) ∧
    (g.button_at pos = none →
      pos_to_grid cfg g.board.cols g.board.rows pos.1 pos.2 = (-1, -1) →
      handle_mouse g cfg pos button mines k now = g) := by
  constructor
  · unfold pos_to_grid
    dsimp only
    split
    · exact Or.inl rfl
    · split
      · exact Or.inl rfl
      · split
        · next hcond => exact Or.inr hcond
        · exact Or.inl rfl
  · intro hb hpg
    unfold handle_mouse
    rw [dif_neg (by simp [hb])]
    rw [hpg]
    norm_num

theorem claim_C8_input_bounds_witness :
    handle_mouse exGame exConfig (0, 0) 1 [] 0 0 = exGame :=
  (claim_C8_input_bounds exGame exConfig 0 0 (0, 0) 1 [] 0 0).2 (by decide) (by decide)

theorem nbrs_sub_inB (cols rows : Nat) (p q : Pos) (h : q ∈ nbrs cols rows p) :
    inB cols rows q := by
  have := (mem_nbrs cols rows p q).mp h
  exact ⟨this.1, this.2.1⟩

theorem nbrs_len_le (cols rows : Nat) (p : Pos) : (nbrs cols rows p).length ≤ 8 :=
  le_trans (List.length_filterMap_le _ _) (by decide)

theorem mem_allPositions (cols rows : Nat) (p : Pos) :
    p ∈ allPositions cols rows ↔ inB cols rows p := by
  unfold allPositions
  rw [List.mem_map]
  constructor
  · rintro ⟨i, hi, rfl⟩
    have hilt := List.mem_range.mp hi
    have hc : 0 < cols := by
      rcases Nat.eq_zero_or_pos cols with h | h
      · rw [h] at hilt
        simp at hilt
      · exact h
    refine ⟨Nat.mod_lt i hc, ?_⟩
    show i / cols < rows
    rw [Nat.div_lt_iff_lt_mul hc]
    calc i < cols * rows := hilt
    _ = rows * cols := Nat.mul_comm _ _
  · intro hp
    exact ⟨p.2 * cols + p.1,
      List.mem_range.mpr (index_lt cols rows p.1 p.2 hp.1 hp.2),
      posOf_index cols p.1 p.2 hp.1⟩

theorem allPositions_nodup (cols rows : Nat) : (allPositions cols rows).Nodup := by
  unfold allPositions
  apply List.Nodup.map_on
  · intro i _ j _ h
    have h1 : i % cols = j % cols := congrArg Prod.fst h
    have h2 : i / cols = j / cols := congrArg Prod.snd h
    have e1 := Nat.div_add_mod i cols
    have e2 := Nat.div_add_mod j cols
    rw [h1, h2] at e1
    omega
  · exact List.nodup_range _

theorem countP_notmem_cons (l visited : List Pos) (a : Pos)
    (hnd : l.Nodup) (hmem : a ∈ l) (hnv : a ∉ visited) :
    l.countP (fun x => decide (x ∉ a :: visited)) + 1
      = l.countP (fun x => decide (x ∉ visited)) := by
  induction l with
  | nil => simp at hmem
  | cons x xs ih =>
    rw [List.countP_cons, List.countP_cons]
    have hnd' := List.nodup_cons.mp hnd
    rcases List.mem_cons.mp hmem with rfl | hmem'
    · have htail : xs.countP (fun y => decide (y ∉ a :: visited))
          = xs.countP (fun y => decide (y ∉ visited)) := by
        apply countP_congr_mem
        intro y hy
        have hya : y ≠ a := fun h => hnd'.1 (h ▸ hy)
        rw [decide_eq_decide]
        simp [List.mem_cons, hya]
      rw [htail]
      have h1 : (decide (a ∉ a :: visited)) = false := by simp
      have h2 : (decide (a ∉ visited)) = true := by simpa using hnv
      rw [h1, h2]
      simp
    · have hxa : x ≠ a := fun h => hnd'.1 (h ▸ hmem')
      have hhead : (decide (x ∉ a :: visited)) = (decide (x ∉ visited)) := by
        rw [decide_eq_decide]
        simp [List.mem_cons, hxa]
      rw [hhead, ← ih hnd'.2 hmem']
      omega

theorem unseen_cons (cols rows : Nat) (p : Pos) (visited : List Pos)
    (hin : inB cols rows p) (hnv : p ∉ visited) :
    unseen cols rows (p :: visited) + 1 = unseen cols rows visited := by
  unfold unseen
  exact countP_notmem_cons (allPositions cols rows) visited p (allPositions_nodup cols rows)
    ((mem_allPositions cols rows p).mpr hin) hnv

theorem unseen_nil (cols rows : Nat) : unseen cols rows [] = cols * rows := by
  unfold unseen
  rw [countP_congr_mem _ _ (fun _ => true) (by intro x _; simp)]
  rw [List.countP_true]
  unfold allPositions
  simp

theorem index_congr (b1 b2 : Board) (h : b1.cols = b2.cols) (c r : Nat) :
    b1.index c r = b2.index c r := by
  unfold Board.index
  rw [h]

theorem cellAt_revealAt (b : Board) (p : Pos) (i : Nat) :
    cellAt (b.revealAt p) i = cellAt b i ∨
      (i = b.index p.1 p.2 ∧ cellAt (b.revealAt p) i = revealCell (cellAt b i)) := by
  by_cases hi : i = b.index p.1 p.2
  · subst hi
    by_cases hlen : b.index p.1 p.2 < b.cells.length
    · exact Or.inr ⟨rfl, cellAt_revealAt_self b p hlen⟩
    · left
      unfold cellAt
      rw [revealAt_cells]
      rw [List.getD_eq_default _ _ (by rw [List.length_set]; omega),
        List.getD_eq_default _ _ (by omega)]
  · exact Or.inl (cellAt_revealAt_ne b p i hi)

theorem cellAt_revealAt_keeps (b : Board) (p : Pos) (i : Nat) :
    (cellAt (b.revealAt p) i).state.is_mine = (cellAt b i).state.is_mine ∧
    (cellAt (b.revealAt p) i).state.adjacent = (cellAt b i).state.adjacent := by
  rcases cellAt_revealAt b p i with h | ⟨_, h⟩ <;> rw [h] <;> exact ⟨rfl, rfl⟩

theorem cellAt_revealAt_mono (b : Board) (p : Pos) (i : Nat)
    (h : (cellAt b i).state.is_revealed = true) :
    (cellAt (b.revealAt p) i).state.is_revealed = true := by
  rcases cellAt_revealAt b p i with h' | ⟨_, h'⟩ <;> rw [h']
  · exact h
  · exact revealCell_is_revealed _

theorem cellAt_revealAt_flag (b : Board) (p : Pos) (i : Nat)
    (hf : (cellAt b (b.index p.1 p.2)).state.is_flagged = false) :
    (cellAt (b.revealAt p) i).state.is_flagged = (cellAt b i).state.is_flagged := by
  rcases cellAt_revealAt b p i with h' | ⟨hip, h'⟩
  · rw [h']
  · subst hip
    rw [h', revealCell_is_flagged, hf]

theorem ZReach_zeroCell (b : Board) (t z : Pos) (h : ZReach b t z) : zeroCell b z := by
  induction h with
  | base h0 => exact h0
  | step _ h0 _ _ => exact h0

theorem guard_false_parts (b : Board) (p : Pos)
    (h : ¬(((b.getCell p.1 p.2).state.is_revealed || (b.getCell p.1 p.2).state.is_flagged ||
        (b.getCell p.1 p.2).state.is_mine) = true)) :
    (b.getCell p.1 p.2).state.is_revealed = false ∧
    (b.getCell p.1 p.2).state.is_flagged = false ∧
    (b.getCell p.1 p.2).state.is_mine = false := by
  simp only [Bool.or_eq_true, not_or, Bool.not_eq_true] at h
  exact ⟨h.1.1, h.1.2, h.2⟩

theorem floodFill_mono (fuel : Nat) : ∀ (b : Board) (work visited : List Pos) (i : Nat),
    (cellAt b i).state.is_revealed = true →
    (cellAt ((b.floodFill work visited fuel).1) i).state.is_revealed = true := by
  induction fuel with
  | zero =>
    intro b work visited i h
    simpa [Board.floodFill] using h
  | succ n ih =>
    intro b work visited i h
    cases work with
    | nil => simpa [Board.floodFill] using h
    | cons p work =>
      simp only [Board.floodFill]
      split
      · exact ih b work visited i h
      · split
        · exact ih b work (p :: visited) i h
        · split
          · exact ih (b.revealAt p) _ _ i (cellAt_revealAt_mono b p i h)
          · exact ih (b.revealAt p) _ _ i (cellAt_revealAt_mono b p i h)

theorem floodFill_flags (fuel : Nat) : ∀ (b : Board) (work visited : List Pos) (i : Nat),
    (cellAt ((b.floodFill work visited fuel).1) i).state.is_flagged
      = (cellAt b i).state.is_flagged := by
  induction fuel with
  | zero => intro b work visited i; simp [Board.floodFill]
  | succ n ih =>
    intro b work visited i
    cases work with
    | nil => simp [Board.floodFill]
    | cons p work =>
      simp only [Board.floodFill]
      split
      · exact ih b work visited i
      · split
        · exact ih b work (p :: visited) i
        · next hguard =>
          have hf := (guard_false_parts b p hguard).2.1
          split
          · rw [ih (b.revealAt p) _ _ i]
            exact cellAt_revealAt_flag b p i hf
          · rw [ih (b.revealAt p) _ _ i]
            exact cellAt_revealAt_flag b p i hf

theorem floodFill_visits (cols rows : Nat) : ∀ (fuel : Nat) (b : Board)
    (work visited : List Pos),
    b.cols = cols → b.rows = rows →
    work.length + 9 * unseen cols rows visited ≤ fuel →
    (∀ p ∈ work, inB cols rows p) →
    ∀ q : Pos, (q ∈ work ∨ q ∈ visited) → q ∈ (b.floodFill work visited fuel).2 := by
  intro fuel
  induction fuel with
  | zero =>
    intro b work visited _ _ hmeas _ q hq
    have hw : work = [] := by
      have : work.length = 0 := by omega
      exact List.length_eq_zero.mp this
    subst hw
    simp only [Board.floodFill]
    rcases hq with hq | hq
    · simp at hq
    · exact hq
  | succ n ih =>
    intro b work visited hcols hrows hmeas hinb q hq
    cases work with
    | nil =>
      simp only [Board.floodFill]
      rcases hq with hq | hq
      · simp at hq
      · exact hq
    | cons p work =>
      have hpinb : inB cols rows p := hinb p (by simp)
      simp only [Board.floodFill]
      split
      · next hvis =>
        apply ih b work visited hcols hrows (by simp at hmeas; omega)
          (fun x hx => hinb x (by simp [hx]))
        rcases hq with hq | hq
        · rcases List.mem_cons.mp hq with rfl | hq'
          · exact Or.inr hvis
          · exact Or.inl hq'
        · exact Or.inr hq
      · next hvis =>
        have hcons := unseen_cons cols rows p visited hpinb hvis
        split
        · apply ih b work (p :: visited) hcols hrows
            (by simp at hmeas ⊢; omega)
            (fun x hx => hinb x (by simp [hx]))
          rcases hq with hq | hq
          · rcases List.mem_cons.mp hq with rfl | hq'
            · exact Or.inr (by simp)
            · exact Or.inl hq'
          · exact Or.inr (by simp [hq])
        · split
          · apply ih (b.revealAt p) (work ++ nbrs b.cols b.rows p) (p :: visited)
              hcols hrows ?_ ?_
            · rcases hq with hq | hq
              · rcases List.mem_cons.mp hq with rfl | hq'
                · exact Or.inr (by simp)
                · exact Or.inl (List.mem_append_left _ hq')
              · exact Or.inr (by simp [hq])
            · have hnb := nbrs_len_le b.cols b.rows p
              simp only [List.length_append]
              simp at hmeas
              omega
            · intro x hx
              rcases List.mem_append.mp hx with hx' | hx'
              · exact hinb x (by simp [hx'])
              · rw [hcols, hrows] at hx'
                exact nbrs_sub_inB cols rows p x hx'
          · apply ih (b.revealAt p) work (p :: visited) hcols hrows
              (by simp at hmeas ⊢; omega)
              (fun x hx => hinb x (by simp [hx]))
            rcases hq with hq | hq
            · rcases List.mem_cons.mp hq with rfl | hq'
              · exact Or.inr (by simp)
              · exact Or.inl hq'
            · exact Or.inr (by simp [hq])

theorem floodFill_sound (b0 : Board) (t : Pos) : ∀ (fuel : Nat) (b : Board)
    (work visited : List Pos),
    b.cols = b0.cols → b.rows = b0.rows →
    (∀ x : Pos, inB b0.cols b0.rows x → x ∉ visited →
      cellAt b (b0.index x.1 x.2) = cellAt b0 (b0.index x.1 x.2)) →
    (∀ x : Pos, inB b0.cols b0.rows x →
      (cellAt b (b0.index x.1 x.2)).state.is_revealed = true →
      (cellAt b0 (b0.index x.1 x.2)).state.is_revealed = true ∨ cascadeSpec b0 t x) →
    (∀ x ∈ work, Wok b0 t x) →
    (∀ x ∈ work, inB b0.cols b0.rows x) →
    ∀ q : Pos, inB b0.cols b0.rows q →
      (cellAt ((b.floodFill work visited fuel).1) (b0.index q.1 q.2)).state.is_revealed = true →
      (cellAt b0 (b0.index q.1 q.2)).state.is_revealed = true ∨ cascadeSpec b0 t q := by
  intro fuel
  induction fuel with
  | zero =>
    intro b work visited _ _ _ hacc _ _ q hqb hrev
    simp only [Board.floodFill] at hrev
    exact hacc q hqb hrev
  | succ n ih =>
    intro b work visited hcols hrows hstate hacc hwok hwinb q hqb hrev
    cases work with
    | nil =>
      simp only [Board.floodFill] at hrev
      exact hacc q hqb hrev
    | cons p work =>
      have hpinb : inB b0.cols b0.rows p := hwinb p (by simp)
      simp only [Board.floodFill] at hrev
      split at hrev
      · exact ih b work visited hcols hrows hstate hacc
          (fun x hx => hwok x (by simp [hx])) (fun x hx => hwinb x (by simp [hx])) q hqb hrev
      · next hvis =>
        split at hrev
        · refine ih b work (p :: visited) hcols hrows ?_ hacc
            (fun x hx => hwok x (by simp [hx])) (fun x hx => hwinb x (by simp [hx])) q hqb hrev
          intro x hxb hxnv
          exact hstate x hxb (fun h => hxnv (List.mem_cons_of_mem p h))
        · next hguard =>
          have hstp : cellAt b (b0.index p.1 p.2) = cellAt b0 (b0.index p.1 p.2) :=
            hstate p hpinb hvis
          have hparts := guard_false_parts b p hguard
          have hidx : b.index p.1 p.2 = b0.index p.1 p.2 := index_congr b b0 hcols p.1 p.2
          have hrev0 : (cellAt b0 (b0.index p.1 p.2)).state.is_revealed = false := by
            have h1 : (cellAt b (b.index p.1 p.2)).state.is_revealed = false := hparts.1
            rw [hidx, hstp] at h1
            exact h1
          have hfl0 : (cellAt b0 (b0.index p.1 p.2)).state.is_flagged = false := by
            have h1 : (cellAt b (b.index p.1 p.2)).state.is_flagged = false := hparts.2.1
            rw [hidx, hstp] at h1
            exact h1
          have hm0 : (cellAt b0 (b0.index p.1 p.2)).state.is_mine = false := by
            have h1 : (cellAt b (b.index p.1 p.2)).state.is_mine = false := hparts.2.2
            rw [hidx, hstp] at h1
            exact h1
          have hrevealable : revealable b0 p := ⟨hrev0, hfl0, hm0⟩
          have hWokp : Wok b0 t p := hwok p (by simp)
          have hstate' : ∀ x : Pos, inB b0.cols b0.rows x → x ∉ p :: visited →
              cellAt (b.revealAt p) (b0.index x.1 x.2) = cellAt b0 (b0.index x.1 x.2) := by
            intro x hxb hxnv
            have hxp : x ≠ p := fun h => hxnv (by simp [h])
            have hxnv' : x ∉ visited := fun h => hxnv (List.mem_cons_of_mem p h)
            have hne : b0.index x.1 x.2 ≠ b.index p.1 p.2 := by
              rw [hidx]
              exact index_ne_of_ne b0 p x hpinb hxb hxp
            rw [cellAt_revealAt_ne b p _ hne]
            exact hstate x hxb hxnv'
          have hacc' : ∀ x : Pos, inB b0.cols b0.rows x →
              (cellAt (b.revealAt p) (b0.index x.1 x.2)).state.is_revealed = true →
              (cellAt b0 (b0.index x.1 x.2)).state.is_revealed = true ∨ cascadeSpec b0 t x := by
            intro x hxb hxrev
            rcases cellAt_revealAt b p (b0.index x.1 x.2) with he | ⟨hie, he⟩
            · rw [he] at hxrev
              exact hacc x hxb hxrev
            · have hxp : x = p := by
                rw [hidx] at hie
                have h2 := index_inj b0.cols x.1 x.2 p.1 p.2 hxb.1 hpinb.1 hie
                exact Prod.ext h2.1 h2.2
              subst hxp
              exact Or.inr ⟨hWokp, hm0, hfl0⟩
          split at hrev
          · next hadj =>
            refine ih (b.revealAt p) (work ++ nbrs b.cols b.rows p) (p :: visited)
              (by rw [revealAt_cols]; exact hcols) (by rw [revealAt_rows]; exact hrows)
              hstate' hacc' ?_ ?_ q hqb hrev
            · have hZp : ZReach b0 t p := by
                have hzero : zeroCell b0 p := by
                  refine ⟨hpinb, hrevealable, ?_⟩
                  have h1 : (cellAt b (b.index p.1 p.2)).state.adjacent = 0 := hadj
                  rw [hidx, hstp] at h1
                  exact h1
                rcases hWokp with rfl | ⟨z, hz, hn⟩
                · exact ZReach.base hzero
                · exact ZReach.step hz hzero hn
              intro x hx
              rcases List.mem_append.mp hx with hx' | hx'
              · exact hwok x (by simp [hx'])
              · rw [hcols, hrows] at hx'
                exact Or.inr ⟨p, hZp, hx'⟩
            · intro x hx
              rcases List.mem_append.mp hx with hx' | hx'
              · exact hwinb x (by simp [hx'])
              · rw [hcols, hrows] at hx'
                exact nbrs_sub_inB _ _ p x hx'
          · exact ih (b.revealAt p) work (p :: visited)
              (by rw [revealAt_cols]; exact hcols) (by rw [revealAt_rows]; exact hrows)
              hstate' hacc' (fun x hx => hwok x (by simp [hx]))
              (fun x hx => hwinb x (by simp [hx])) q hqb hrev

theorem floodFill_visited_revealed (b0 : Board) (hlen0 : b0.cells.length = b0.cols * b0.rows) :
    ∀ (fuel : Nat) (b : Board) (work visited : List Pos),
    b.cols = b0.cols → b.rows = b0.rows → b.cells.length = b0.cells.length →
    (∀ x : Pos, inB b0.cols b0.rows x → x ∉ visited →
      cellAt b (b0.index x.1 x.2) = cellAt b0 (b0.index x.1 x.2)) →
    (∀ x ∈ visited, inB b0.cols b0.rows x → revealable b0 x →
      (cellAt b (b0.index x.1 x.2)).state.is_revealed = true) →
    (∀ x ∈ work, inB b0.cols b0.rows x) →
    ∀ q ∈ (b.floodFill work visited fuel).2, inB b0.cols b0.rows q → revealable b0 q →
      (cellAt ((b.floodFill work visited fuel).1) (b0.index q.1 q.2)).state.is_revealed
        = true := by
  intro fuel
  induction fuel with
  | zero =>
    intro b work visited _ _ _ _ hvisited _
    simp only [Board.floodFill]
    exact hvisited
  | succ n ih =>
    intro b work visited hcols hrows hlen hstate hvisited hwinb
    cases work with
    | nil =>
      simp only [Board.floodFill]
      exact hvisited
    | cons p work =>
      have hpinb : inB b0.cols b0.rows p := hwinb p (by simp)
      have hidx : b.index p.1 p.2 = b0.index p.1 p.2 := index_congr b b0 hcols p.1 p.2
      simp only [Board.floodFill]
      split
      · exact ih b work visited hcols hrows hlen hstate hvisited
          (fun x hx => hwinb x (by simp [hx]))
      · next hvis =>
        split
        · next hguard =>
          refine ih b work (p :: visited) hcols hrows hlen ?_ ?_
            (fun x hx => hwinb x (by simp [hx]))
          · intro x hxb hxnv
            exact hstate x hxb (fun h => hxnv (List.mem_cons_of_mem p h))
          · intro x hx hxb hxrev
            rcases List.mem_cons.mp hx with rfl | hx'
            · exfalso
              have hstp := hstate x hxb hvis
              have hgc : b.getCell x.1 x.2 = cellAt b0 (b0.index x.1 x.2) := by
                show cellAt b (b.index x.1 x.2) = _
                rw [hidx]
                exact hstp
              rw [hgc] at hguard
              have h1 : (cellAt b0 (b0.index x.1 x.2)).state.is_revealed = false := hxrev.1
              have h2 : (cellAt b0 (b0.index x.1 x.2)).state.is_flagged = false := hxrev.2.1
              have h3 : (cellAt b0 (b0.index x.1 x.2)).state.is_mine = false := hxrev.2.2
              rw [h1, h2, h3] at hguard
              simp at hguard
            · exact hvisited x hx' hxb hxrev
        · next hguard =>
          have hstate' : ∀ x : Pos, inB b0.cols b0.rows x → x ∉ p :: visited →
              cellAt (b.revealAt p) (b0.index x.1 x.2) = cellAt b0 (b0.index x.1 x.2) := by
            intro x hxb hxnv
            have hxp : x ≠ p := fun h => hxnv (by simp [h])
            have hxnv' : x ∉ visited := fun h => hxnv (List.mem_cons_of_mem p h)
            have hne : b0.index x.1 x.2 ≠ b.index p.1 p.2 := by
              rw [hidx]
              exact index_ne_of_ne b0 p x hpinb hxb hxp
            rw [cellAt_revealAt_ne b p _ hne]
            exact hstate x hxb hxnv'
          have hplen : b.index p.1 p.2 < b.cells.length := by
            rw [hidx, hlen, hlen0]
            exact index_lt b0.cols b0.rows p.1 p.2 hpinb.1 hpinb.2
          have hvisited' : ∀ x ∈ p :: visited, inB b0.cols b0.rows x → revealable b0 x →
              (cellAt (b.revealAt p) (b0.index x.1 x.2)).state.is_revealed = true := by
            intro x hx hxb hxrev
            rcases List.mem_cons.mp hx with rfl | hx'
            · have hself := cellAt_revealAt_self b x hplen
              rw [← hidx]
              rw [hself]
              exact revealCell_is_revealed _
            · exact cellAt_revealAt_mono b p _ (hvisited x hx' hxb hxrev)
          have hlen' : (b.revealAt p).cells.length = b0.cells.length := by
            rw [revealAt_length]
            exact hlen
          split
          · exact ih (b.revealAt p) (work ++ nbrs b.cols b.rows p) (p :: visited)
              (by rw [revealAt_cols]; exact hcols) (by rw [revealAt_rows]; exact hrows)
              hlen' hstate' hvisited'
              (by
                intro x hx
                rcases List.mem_append.mp hx with hx' | hx'
                · exact hwinb x (by simp [hx'])
                · rw [hcols, hrows] at hx'
                  exact nbrs_sub_inB _ _ p x hx')
          · exact ih (b.revealAt p) work (p :: visited)
              (by rw [revealAt_cols]; exact hcols) (by rw [revealAt_rows]; exact hrows)
              hlen' hstate' hvisited' (fun x hx => hwinb x (by simp [hx]))

theorem floodFill_closed (b0 : Board) : ∀ (fuel : Nat) (b : Board) (work visited : List Pos),
    b.cols = b0.cols → b.rows = b0.rows →
    work.length + 9 * unseen b0.cols b0.rows visited ≤ fuel →
    (∀ x ∈ work, inB b0.cols b0.rows x) →
    (∀ x : Pos, inB b0.cols b0.rows x → x ∉ visited →
      cellAt b (b0.index x.1 x.2) = cellAt b0 (b0.index x.1 x.2)) →
    (∀ x ∈ visited, zeroCell b0 x →
      ∀ m ∈ nbrs b0.cols b0.rows x, m ∈ visited ∨ m ∈ work) →
    ∀ q ∈ (b.floodFill work visited fuel).2, zeroCell b0 q →
      ∀ m ∈ nbrs b0.cols b0.rows q, m ∈ (b.floodFill work visited fuel).2 := by
  intro fuel
  induction fuel with
  | zero =>
    intro b work visited _ _ hmeas _ _ hcl
    have hw : work = [] := List.length_eq_zero.mp (by omega)
    subst hw
    simp only [Board.floodFill]
    intro q hq hz m hm
    rcases hcl q hq hz m hm with h | h
    · exact h
    · simp at h
  | succ n ih =>
    intro b work visited hcols hrows hmeas hwinb hstate hcl
    cases work with
    | nil =>
      simp only [Board.floodFill]
      intro q hq hz m hm
      rcases hcl q hq hz m hm with h | h
      · exact h
      · simp at h
    | cons p work =>
      have hpinb : inB b0.cols b0.rows p := hwinb p (by simp)
      have hidx : b.index p.1 p.2 = b0.index p.1 p.2 := index_congr b b0 hcols p.1 p.2
      simp only [Board.floodFill]
      split
      · next hvis =>
        refine ih b work visited hcols hrows (by simp at hmeas; omega)
          (fun x hx => hwinb x (by simp [hx])) hstate ?_
        intro x hx hz m hm
        rcases hcl x hx hz m hm with h | h
        · exact Or.inl h
        · rcases List.mem_cons.mp h with rfl | h'
          · exact Or.inl hvis
          · exact Or.inr h'
      · next hvis =>
        have hcons := unseen_cons b0.cols b0.rows p visited hpinb hvis
        have hstate' : ∀ x : Pos, inB b0.cols b0.rows x → x ∉ p :: visited →
            cellAt (b.revealAt p) (b0.index x.1 x.2) = cellAt b0 (b0.index x.1 x.2) := by
          intro x hxb hxnv
          have hxp : x ≠ p := fun h => hxnv (by simp [h])
          have hxnv' : x ∉ visited := fun h => hxnv (List.mem_cons_of_mem p h)
          have hne : b0.index x.1 x.2 ≠ b.index p.1 p.2 := by
            rw [hidx]
            exact index_ne_of_ne b0 p x hpinb hxb hxp
          rw [cellAt_revealAt_ne b p _ hne]
          exact hstate x hxb hxnv'
        have hstate0 : ∀ x : Pos, inB b0.cols b0.rows x → x ∉ p :: visited →
            cellAt b (b0.index x.1 x.2) = cellAt b0 (b0.index x.1 x.2) := by
          intro x hxb hxnv
          exact hstate x hxb (fun h => hxnv (List.mem_cons_of_mem p h))
        have hstp := hstate p hpinb hvis
        have hgc : b.getCell p.1 p.2 = cellAt b0 (b0.index p.1 p.2) := by
          show cellAt b (b.index p.1 p.2) = _
          rw [hidx]
          exact hstp
        split
        · next hguard =>
          refine ih b work (p :: visited) hcols hrows (by simp at hmeas ⊢; omega)
            (fun x hx => hwinb x (by simp [hx])) hstate0 ?_
          intro x hx hz m hm
          rcases List.mem_cons.mp hx with rfl | hx'
          · exfalso
            rw [hgc] at hguard
            have h1 : (cellAt b0 (b0.index x.1 x.2)).state.is_revealed = false := hz.2.1.1
            have h2 : (cellAt b0 (b0.index x.1 x.2)).state.is_flagged = false := hz.2.1.2.1
            have h3 : (cellAt b0 (b0.index x.1 x.2)).state.is_mine = false := hz.2.1.2.2
            rw [h1, h2, h3] at hguard
            simp at hguard
          · rcases hcl x hx' hz m hm with h | h
            · exact Or.inl (List.mem_cons_of_mem p h)
            · rcases List.mem_cons.mp h with rfl | h'
              · exact Or.inl (by simp)
              · exact Or.inr h'
        · next hguard =>
          split
          · next hadj =>
            refine ih (b.revealAt p) (work ++ nbrs b.cols b.rows p) (p :: visited)
              (by rw [revealAt_cols]; exact hcols) (by rw [revealAt_rows]; exact hrows)
              ?_ ?_ hstate' ?_
            · have hnb := nbrs_len_le b.cols b.rows p
              simp only [List.length_append]
              simp at hmeas
              omega
            · intro x hx
              rcases List.mem_append.mp hx with hx' | hx'
              · exact hwinb x (by simp [hx'])
              · rw [hcols, hrows] at hx'
                exact nbrs_sub_inB _ _ p x hx'
            · intro x hx hz m hm
              rcases List.mem_cons.mp hx with rfl | hx'
              · refine Or.inr (List.mem_append_right _ ?_)
                rw [hcols, hrows]
                exact hm
              · rcases hcl x hx' hz m hm with h | h
                · exact Or.inl (List.mem_cons_of_mem p h)
                · rcases List.mem_cons.mp h with rfl | h'
                  · exact Or.inl (by simp)
                  · exact Or.inr (List.mem_append_left _ h')
          · next hadj =>
            refine ih (b.revealAt p) work (p :: visited)
              (by rw [revealAt_cols]; exact hcols) (by rw [revealAt_rows]; exact hrows)
              (by simp at hmeas ⊢; omega)
              (fun x hx => hwinb x (by simp [hx])) hstate' ?_
            intro x hx hz m hm
            rcases List.mem_cons.mp hx with rfl | hx'
            · exfalso
              apply hadj
              rw [hgc]
              exact hz.2.2
            · rcases hcl x hx' hz m hm with h | h
              · exact Or.inl (List.mem_cons_of_mem p h)
              · rcases List.mem_cons.mp h with rfl | h'
                · exact Or.inl (by simp)
                · exact Or.inr h'

/-- C1: on an Active board, revealing an in-bounds, unrevealed, unflagged,
non-mine target reveals exactly the target plus (when the target's adjacency
is zero) the connected zero-adjacency region reachable from it together with
its one-ring boundary, skipping flagged cells and mines — `cascadeSpec`
states exactly this set — and the cascade never changes any flag. -/
theorem claim_C1_reveal_cascade (b : Board) (c r : Nat) (hWF : WF b)
    (hgo : b.game_over = false) (hw : b.win = false)
    (hc : c < b.cols) (hr : r < b.rows)
    (hrev : (b.getCell c r).state.is_revealed = false)
    (hfl : (b.getCell c r).state.is_flagged = false)
    (hmn : (b.getCell c r).state.is_mine = false) :
    (∀ p : Pos, inB b.cols b.rows p →
      (((b.reveal c r).getCell p.1 p.2).state.is_revealed = true ↔
        ((b.getCell p.1 p.2).state.is_revealed = true ∨ cascadeSpec b (c, r) p))) ∧
    (∀ p : Pos, inB b.cols b.rows p →
      ((b.reveal c r).getCell p.1 p.2).state.is_flagged
        = (b.getCell p.1 p.2).state.is_flagged) := by
  have hred : b.reveal c r
      = Board.recompute_win (b.floodFill [(c, r)] [] (9 * (b.cols * b.rows) + 1)).1 := by
    unfold Board.reveal
    rw [if_neg (by simp [hgo, hw]), if_pos ⟨hc, hr⟩, if_neg (by simp [hrev, hfl]),
      if_neg (by simp [hmn])]
  have hFcols : (b.floodFill [(c, r)] [] (9 * (b.cols * b.rows) + 1)).1.cols = b.cols :=
    (floodFill_scalars _ b _ _).1
  have hgc : ∀ p : Pos, (b.reveal c r).getCell p.1 p.2
      = cellAt (b.floodFill [(c, r)] [] (9 * (b.cols * b.rows) + 1)).1 (b.index p.1 p.2) := by
    intro p
    rw [hred]
    show cellAt (b.floodFill [(c, r)] [] (9 * (b.cols * b.rows) + 1)).1
      ((b.floodFill [(c, r)] [] (9 * (b.cols * b.rows) + 1)).1.index p.1 p.2) = _
    rw [index_congr _ b hFcols]
  have hmeas : ([(c, r)] : List Pos).length + 9 * unseen b.cols b.rows []
      ≤ 9 * (b.cols * b.rows) + 1 := by
    rw [unseen_nil]
    simp
    omega
  have hwinb : ∀ x ∈ ([(c, r)] : List Pos), inB b.cols b.rows x := by
    intro x hx
    rcases List.mem_cons.mp hx with rfl | hx'
    · exact ⟨hc, hr⟩
    · simp at hx'
  have hstate0 : ∀ x : Pos, inB b.cols b.rows x → x ∉ ([] : List Pos) →
      cellAt b (b.index x.1 x.2) = cellAt b (b.index x.1 x.2) := fun _ _ _ => rfl
  have hvisits := floodFill_visits b.cols b.rows (9 * (b.cols * b.rows) + 1) b [(c, r)] []
    rfl rfl hmeas hwinb
  have hclosed := floodFill_closed b (9 * (b.cols * b.rows) + 1) b [(c, r)] []
    rfl rfl hmeas hwinb hstate0 (by intro x hx; simp at hx)
  have hver := floodFill_visited_revealed b hWF.2.2.1 (9 * (b.cols * b.rows) + 1) b [(c, r)] []
    rfl rfl rfl hstate0 (by intro x hx; simp at hx) hwinb
  have hZV : ∀ z, ZReach b (c, r) z
      → z ∈ (b.floodFill [(c, r)] [] (9 * (b.cols * b.rows) + 1)).2 := by
    intro z hz
    induction hz with
    | base h0 => exact hvisits (c, r) (Or.inl (by simp))
    | step hq h0 hn ihz => exact hclosed _ ihz (ZReach_zeroCell _ _ _ hq) _ hn
  have hsound := floodFill_sound b (c, r) (9 * (b.cols * b.rows) + 1) b [(c, r)] []
    rfl rfl hstate0 (fun x _ hrevx => Or.inl hrevx)
    (by
      intro x hx
      rcases List.mem_cons.mp hx with rfl | h'
      · exact Or.inl rfl
      · simp at h')
    hwinb
  constructor
  · intro p hp
    rw [hgc p]
    constructor
    · intro hrevp
      exact hsound p hp hrevp
    · intro hor
      rcases hor with hrevb | hcs
      · exact floodFill_mono _ b _ _ _ hrevb
      · by_cases hrevb : (b.getCell p.1 p.2).state.is_revealed = true
        · exact floodFill_mono _ b _ _ _ hrevb
        · have hrevb' : (b.getCell p.1 p.2).state.is_revealed = false :=
            Bool.eq_false_iff.mpr (fun h => hrevb h)
          have hrevealable : revealable b p := ⟨hrevb', hcs.2.2, hcs.2.1⟩
          have hpV : p ∈ (b.floodFill [(c, r)] [] (9 * (b.cols * b.rows) + 1)).2 := by
            rcases hcs.1 with rfl | ⟨z, hz, hn⟩
            · exact hvisits _ (Or.inl (by simp))
            · exact hclosed z (hZV z hz) (ZReach_zeroCell _ _ _ hz) p hn
          exact hver p hpV hp hrevealable
  · intro p hp
    rw [hgc p]
    exact floodFill_flags _ b _ _ _

theorem flagFlipCell_col (c : Cell) : (flagFlipCell c).col = c.col := rfl

theorem flagFlipCell_row (c : Cell) : (flagFlipCell c).row = c.row := rfl

theorem flagToggleAt_scalars (b : Board) (p : Pos) :
    (b.flagToggleAt p).cols = b.cols ∧ (b.flagToggleAt p).rows = b.rows ∧
    (b.flagToggleAt p).cells.length = b.cells.length := by
  refine ⟨rfl, rfl, ?_⟩
  show (b.cells.set _ _).length = b.cells.length
  exact List.length_set _ _ _

theorem cellAt_flagToggleAt (b : Board) (p : Pos) (i : Nat) :
    cellAt (b.flagToggleAt p) i = cellAt b i ∨
      cellAt (b.flagToggleAt p) i = flagFlipCell (cellAt b i) := by
  by_cases hi : i = b.index p.1 p.2
  · subst hi
    by_cases hlen : b.index p.1 p.2 < b.cells.length
    · right
      unfold cellAt Board.flagToggleAt
      exact getD_set_self _ _ _ _ hlen
    · left
      unfold cellAt Board.flagToggleAt
      rw [List.getD_eq_default _ _ (by rw [List.length_set]; omega),
        List.getD_eq_default _ _ (by omega)]
  · left
    unfold cellAt Board.flagToggleAt
    exact getD_set_ne _ _ _ _ _ (fun h => hi h.symm)

theorem cellAt_revealAt_colrow (b : Board) (p : Pos) (i : Nat) :
    (cellAt (b.revealAt p) i).col = (cellAt b i).col ∧
    (cellAt (b.revealAt p) i).row = (cellAt b i).row := by
  rcases cellAt_revealAt b p i with h | ⟨_, h⟩ <;> rw [h] <;> exact ⟨rfl, rfl⟩

theorem floodFill_colrow (fuel : Nat) : ∀ (b : Board) (work visited : List Pos) (i : Nat),
    (cellAt ((b.floodFill work visited fuel).1) i).col = (cellAt b i).col ∧
    (cellAt ((b.floodFill work visited fuel).1) i).row = (cellAt b i).row := by
  induction fuel with
  | zero => intro b work visited i; simp [Board.floodFill]
  | succ n ih =>
    intro b work visited i
    cases work with
    | nil => simp [Board.floodFill]
    | cons p work =>
      simp only [Board.floodFill]
      split
      · exact ih b work visited i
      · split
        · exact ih b work (p :: visited) i
        · split
          · have h1 := ih (b.revealAt p) (work ++ nbrs b.cols b.rows p) (p :: visited) i
            have h2 := cellAt_revealAt_colrow b p i
            exact ⟨h1.1.trans h2.1, h1.2.trans h2.2⟩
          · have h1 := ih (b.revealAt p) work (p :: visited) i
            have h2 := cellAt_revealAt_colrow b p i
            exact ⟨h1.1.trans h2.1, h1.2.trans h2.2⟩

theorem WF_of_parts (b b' : Board) (hco : b'.cols = b.cols) (hro : b'.rows = b.rows)
    (hle : b'.cells.length = b.cells.length)
    (hcr : ∀ i : Nat, (cellAt b' i).col = (cellAt b i).col ∧
      (cellAt b' i).row = (cellAt b i).row)
    (hWF : WF b) : WF b' := by
  refine ⟨by rw [hco]; exact hWF.1, by rw [hro]; exact hWF.2.1,
    by rw [hle, hco, hro]; exact hWF.2.2.1, ?_⟩
  intro i hi
  rw [hco, hro] at hi
  have h := hWF.2.2.2 i hi
  rw [hco, (hcr i).1, (hcr i).2]
  exact h

theorem reveal_WF (b : Board) (c r : Nat) (hWF : WF b) : WF (b.reveal c r) := by
  unfold Board.reveal
  split
  · exact hWF
  · split
    · split
      · exact hWF
      · split
        · refine WF_of_parts b _ rfl rfl ?_ ?_ hWF
          · show (b.revealAt (c, r)).cells.length = b.cells.length
            exact revealAt_length _ _
          · intro i
            exact cellAt_revealAt_colrow b (c, r) i
        · refine WF_of_parts b _ ?_ ?_ ?_ ?_ hWF
          · show (b.floodFill [(c, r)] [] (9 * (b.cols * b.rows) + 1)).1.cols = b.cols
            exact (floodFill_scalars _ b _ _).1
          · show (b.floodFill [(c, r)] [] (9 * (b.cols * b.rows) + 1)).1.rows = b.rows
            exact (floodFill_scalars _ b _ _).2.1
          · show (b.floodFill [(c, r)] [] (9 * (b.cols * b.rows) + 1)).1.cells.length
              = b.cells.length
            exact (floodFill_scalars _ b _ _).2.2.2.2.2
          · intro i
            exact floodFill_colrow _ b _ _ i
    · exact hWF

theorem toggle_flag_WF (b : Board) (c r : Nat) (hWF : WF b) : WF (b.toggle_flag c r) := by
  unfold Board.toggle_flag
  split
  · exact hWF
  · split
    · split
      · exact hWF
      · refine WF_of_parts b _ rfl rfl (flagToggleAt_scalars b (c, r)).2.2 ?_ hWF
        intro i
        rcases cellAt_flagToggleAt b (c, r) i with h | h <;> rw [h] <;> exact ⟨rfl, rfl⟩
    · exact hWF

theorem runOps_WF (b : Board) (ops : List Op) (hWF : WF b) : WF (runOps b ops) := by
  induction ops generalizing b with
  | nil => exact hWF
  | cons op ops ih =>
    refine ih (applyOp b op) ?_
    cases op with
    | rev c r => exact reveal_WF b c r hWF
    | flag c r => exact toggle_flag_WF b c r hWF

theorem mkBoard_WF (cols rows mc : Nat) (mines : List Pos) (hc : 0 < cols) (hr : 0 < rows) :
    WF (mkBoard cols rows mc mines) := by
  refine ⟨hc, hr, ?_, ?_⟩
  · show ((List.range (cols * rows)).map (mkCell cols rows mines)).length = cols * rows
    simp
  · intro i hi
    have hin : i < cols * rows := List.mem_range.mp hi
    rw [cellAt_mkBoard cols rows mc mines i hin]
    exact ⟨rfl, rfl⟩

theorem mkBoard_inv (cols rows mc : Nat) (mines : List Pos)
    (hnd : mines.Nodup) (hlen : mines.length = mc)
    (hin : ∀ p ∈ mines, p.1 < cols ∧ p.2 < rows) (hmc : mc < cols * rows) :
    Inv (mkBoard cols rows mc mines) := by
  constructor
  · show false = allSafeRevealed (mkBoard cols rows mc mines)
    cases hall : allSafeRevealed (mkBoard cols rows mc mines)
    · rfl
    · exfalso
      have hALL := (allSafe_iff _).mp hall
      have hmine : ∀ cell ∈ (mkBoard cols rows mc mines).cells,
          (fun cl : Cell => cl.state.is_mine) cell = true := by
        intro cell hc'
        obtain ⟨i, _, rfl⟩ := List.mem_map.mp hc'
        cases hmm : (mkCell cols rows mines i).state.is_mine
        · have hrev := hALL _ hc' hmm
          exact absurd hrev (by
            show ¬((mkCell cols rows mines i).state.is_revealed = true)
            exact fun h => Bool.false_ne_true ((rfl : (mkCell cols rows mines i).state.is_revealed = false).symm.trans h))
        · exact hmm
      have hcnt : (mkBoard cols rows mc mines).cells.countP (fun cl => cl.state.is_mine)
          = (mkBoard cols rows mc mines).cells.length := List.countP_eq_length.mpr hmine
      have hcnt2 : (mkBoard cols rows mc mines).cells.countP (fun cl => cl.state.is_mine)
          = mines.length := by
        show ((List.range (cols * rows)).map (mkCell cols rows mines)).countP _ = _
        rw [List.countP_map]
        rw [show ((fun cl : Cell => cl.state.is_mine) ∘ mkCell cols rows mines)
            = fun i => decide (posOf cols i ∈ mines) from rfl]
        exact countP_range_mem_mines cols rows mines hnd hin
      have hlencells : (mkBoard cols rows mc mines).cells.length = cols * rows := by
        show ((List.range (cols * rows)).map (mkCell cols rows mines)).length = cols * rows
        simp
      omega
  · intro hboth
    exact Bool.false_ne_true hboth.1

theorem claim_C1_reveal_cascade_witness :
    ((exBoard3.reveal 0 0).getCell 1 1).state.is_revealed = true ∧
    ((exBoard3.reveal 0 0).getCell 2 2).state.is_flagged
      = (exBoard3.getCell 2 2).state.is_flagged := by
  have h := claim_C1_reveal_cascade exBoard3 0 0 (by decide) (by decide) (by decide)
    (by decide) (by decide) (by decide) (by decide) (by decide)
  refine ⟨(h.1 (1, 1) (by decide)).mpr (Or.inr ?_), h.2 (2, 2) (by decide)⟩
  refine ⟨Or.inr ⟨(0, 0), ZReach.base (by decide), by decide⟩, by decide, by decide⟩

end Mines
